import Mathlib

/-!
# Verification of the sjd storage engine

A shallow embedding of the core of the `sjd` (simple-json-db) storage
engine: the generic recursive serializer/deserializer
(`src/sjd/serialization/_serializer.py`, `_deserializer.py`), the
change-tracking commit protocol of a collection
(`src/sjd/database/_collection.py`, `_save_changes`), the snapshot-scan
protocol, the relationship manager, and the master-record line format.

Python values are modelled by `Value`: JSON scalars, lists, plain dicts,
and object instances (`obj cls attrs`, a class name together with the
instance `__dict__`).  Entity classes are modelled by a `Schema`
assigning to each class name its list of property descriptors (`TProp`),
mirroring the fields of `TProperty` in `src/sjd/entity/_property.py`.
Machine integers do not overflow in Python, so `Int` is exact.
-/

/-- A Python runtime value: JSON scalars, lists, dicts, and entity
instances (class name plus attribute dictionary). -/
inductive Value where
  | none : Value
  | bool (b : Bool) : Value
  | int (n : Int) : Value
  | str (s : String) : Value
  | list (xs : List Value) : Value
  | dict (kvs : List (String × Value)) : Value
  | obj (cls : String) (attrs : List (String × Value)) : Value

namespace Value

mutual

/-- Boolean structural equality on `Value`. -/
def beq : Value → Value → Bool
  | .none, .none => true
  | .bool a, .bool b => a == b
  | .int a, .int b => a == b
  | .str a, .str b => a == b
  | .list xs, .list ys => beqL xs ys
  | .dict xs, .dict ys => beqKV xs ys
  | .obj c a, .obj d b => c == d && beqKV a b
  | _, _ => false

/-- Boolean structural equality on lists of values. -/
def beqL : List Value → List Value → Bool
  | [], [] => true
  | x :: xs, y :: ys => beq x y && beqL xs ys
  | _, _ => false

/-- Boolean structural equality on key-value lists. -/
def beqKV : List (String × Value) → List (String × Value) → Bool
  | [], [] => true
  | (k, v) :: xs, (l, w) :: ys => k == l && beq v w && beqKV xs ys
  | _, _ => false

end

mutual

theorem beq_sound : ∀ a b : Value, beq a b = true → a = b
  | .none, .none, _ => rfl
  | .bool a, .bool b, h => by
    simp only [beq] at h; exact congrArg Value.bool (eq_of_beq h)
  | .int a, .int b, h => by
    simp only [beq] at h; exact congrArg Value.int (eq_of_beq h)
  | .str a, .str b, h => by
    simp only [beq] at h; exact congrArg Value.str (eq_of_beq h)
  | .list xs, .list ys, h => by
    simp only [beq] at h
    exact congrArg Value.list (beqL_sound xs ys h)
  | .dict xs, .dict ys, h => by
    simp only [beq] at h
    exact congrArg Value.dict (beqKV_sound xs ys h)
  | .obj c a, .obj d b, h => by
    simp only [beq, Bool.and_eq_true] at h
    have h1 : c = d := eq_of_beq h.1
    exact h1 ▸ congrArg (Value.obj c) (beqKV_sound a b h.2)

theorem beqL_sound : ∀ xs ys : List Value, beqL xs ys = true → xs = ys
  | [], [], _ => rfl
  | x :: xs, y :: ys, h => by
    simp only [beqL, Bool.and_eq_true] at h
    exact congrArg₂ List.cons (beq_sound x y h.1) (beqL_sound xs ys h.2)

theorem beqKV_sound : ∀ xs ys : List (String × Value), beqKV xs ys = true → xs = ys
  | [], [], _ => rfl
  | (k, v) :: xs, (l, w) :: ys, h => by
    simp only [beqKV, Bool.and_eq_true] at h
    have h1 : k = l := eq_of_beq h.1.1
    exact congrArg₂ List.cons (by rw [h1, beq_sound v w h.1.2]) (beqKV_sound xs ys h.2)

end

mutual

theorem beq_refl : ∀ a : Value, beq a a = true
  | .none => rfl
  | .bool a => by simp [beq]
  | .int a => by simp [beq]
  | .str a => by simp [beq]
  | .list xs => by simp only [beq]; exact beqL_refl xs
  | .dict xs => by simp only [beq]; exact beqKV_refl xs
  | .obj c a => by
    simp only [beq, Bool.and_eq_true]
    exact ⟨by simp, beqKV_refl a⟩

theorem beqL_refl : ∀ xs : List Value, beqL xs xs = true
  | [] => rfl
  | x :: xs => by
    simp only [beqL, Bool.and_eq_true]
    exact ⟨beq_refl x, beqL_refl xs⟩

theorem beqKV_refl : ∀ xs : List (String × Value), beqKV xs xs = true
  | [] => rfl
  | (k, v) :: xs => by
    simp only [beqKV, Bool.and_eq_true]
    exact ⟨⟨by simp, beq_refl v⟩, beqKV_refl xs⟩

end

instance : DecidableEq Value := fun a b =>
  if h : beq a b = true then isTrue (beq_sound a b h)
  else isFalse (fun he => h (he ▸ beq_refl a))

end Value

/-- A property descriptor, mirroring `TProperty` in
`src/sjd/entity/_property.py` together with the markers that
`_collection.py` reads off the virtual/reference property subclasses.
`defaultFactory` models a constant `default_factory` (the factories in
the code base — `lambda: 0`, `lambda: ""`, `lambda: None`, `list` — all
return a fixed value).  `descriptorBacked` records whether the class
attribute named `actualName` is the `TProperty` data descriptor itself,
which is the case for every property declared in a class body
(`__set_name__` sets `actual_name` to the attribute name); it is false
for attributes that are only redirected to (such as the master entity's
slave attribute, stored under `_MasterEntity_slave` while the descriptor
lives under `slave`). -/
structure TProp where
  actualName : String
  jsonPropertyName : Option String := Option.none
  required : Bool := false
  isList : Bool := false
  isComplex : Bool := false
  defaultFactory : Option Value := Option.none
  init : Bool := true
  typeOfEntity : String := ""
  descriptorBacked : Bool := true
  virtual : Bool := false
  isReference : Bool := false
  refersTo : String := ""
deriving DecidableEq

/-- Entity schema: each class name is mapped to the `TProperty` list
that `get_properties` (`src/sjd/serialization/_shared.py`) yields for
it, in `inspect.getmembers` order (alphabetical by member name).
Builtin non-entity classes (`int`, `str`, `list`, `dict`, ...) carry no
properties. -/
def Schema : Type := String → List TProp

/-- Errors raised by the modelled code: `ValueError` for a missing
required property, Python `TypeError`/`KeyError` style failures, and
fuel exhaustion of the embedding (Python recursion is unbounded). -/
inductive SerErr where
  | missingRequired (name : String)
  | typeError (msg : String)
  | outOfFuel
deriving DecidableEq

/-- Association-list lookup on a Python dict modelled as an ordered
key-value list. -/
def alookup : List (String × Value) → String → Option Value
  | [], _ => Option.none
  | (k, v) :: rest, key => if k == key then some v else alookup rest key

/-- Python dict assignment `d[k] = v`: replaces the value in place if
the key exists, otherwise appends (insertion order preserved). -/
def dictInsert : List (String × Value) → String → Value → List (String × Value)
  | [], k, v => [(k, v)]
  | (k', v') :: rest, k, v =>
    if k' == k then (k, v) :: rest else (k', v') :: dictInsert rest k v

/-- Python `del d[k]`: removes the first binding of `k`. -/
def dictErase : List (String × Value) → String → List (String × Value)
  | [], _ => []
  | (k', v') :: rest, k => if k' == k then rest else (k', v') :: dictErase rest k

/-- Python truthiness of a value (`if not data: ...`). -/
def pyTruthy : Value → Bool
  | .none => false
  | .bool b => b
  | .int n => n != 0
  | .str s => s != ""
  | .list xs => !xs.isEmpty
  | .dict kvs => !kvs.isEmpty
  | .obj _ _ => true

/-- The wire name of a property: `prop.json_property_name or
prop.actual_name` — Python `or` falls back on a falsy (empty) name. -/
def wireName (p : TProp) : String :=
  match p.jsonPropertyName with
  | some s => if s == "" then p.actualName else s
  | Option.none => p.actualName

/-- Python `hasattr(entity, name)` for a property's attribute: true if
the instance dictionary holds the name, or if the class attribute of
that name is the property descriptor itself (whose `__get__` never
raises). -/
def hasattrB (attrs : List (String × Value)) (p : TProp) : Bool :=
  (alookup attrs p.actualName).isSome || p.descriptorBacked

/-- Python `getattr(entity, name)` under the same conditions: the stored
instance value, or the descriptor's default (`default_factory()` if
set, else `None`).  Only evaluated on paths where `hasattr` held. -/
def getattrPy (attrs : List (String × Value)) (p : TProp) : Value :=
  match alookup attrs p.actualName with
  | some v => v
  | Option.none => p.defaultFactory.getD .none

/-- Boolean substring occurrence test over character lists. -/
def substrMem (needle : List Char) : List Char → Bool
  | [] => needle.isEmpty
  | c :: rest => List.isPrefixOf needle (c :: rest) || substrMem needle rest

/-- Python `key in data`: dict key membership, substring test on
strings, element membership on lists; `TypeError` otherwise. -/
def pyContains : Value → String → Except SerErr Bool
  | .dict kvs, k => .ok (kvs.any (fun kv => kv.1 == k))
  | .str s, k => .ok (substrMem k.toList s.toList)
  | .list xs, k => .ok (xs.any (fun x => x == .str k))
  | _, _ => .error (.typeError "argument of type is not iterable")

/-- Python `data[k]` with a string key: dict lookup (`KeyError` when
absent), `TypeError` on any other shape. -/
def pyGetItem : Value → String → Except SerErr Value
  | .dict kvs, k =>
    match alookup kvs k with
    | some v => .ok v
    | Option.none => .error (.typeError "KeyError")
  | _, _ => .error (.typeError "indices must be integers")

/-- Python iteration `for x in v`: list elements, string characters
(one-character strings), dict keys; `TypeError` otherwise. -/
def pyIterE : Value → Except SerErr (List Value)
  | .list xs => .ok xs
  | .str s => .ok (s.toList.map (fun c => .str (String.singleton c)))
  | .dict kvs => .ok (kvs.map (fun kv => .str kv.1))
  | _ => .error (.typeError "is not iterable")

mutual

/-- Embedding of `serialize` (`src/sjd/serialization/_serializer.py`).
`None` passes through; an object is serialized property by property in
`get_properties` order, a list element-wise; values whose class carries
no properties (scalars, dicts) pass through unchanged, which is exactly
what the Python `found_props == 0` fallback produces for them.  The
`Serializable` fast path and `PropertyBinder` redirection are outside
the modelled entity classes (no entity in the modelled scope implements
`Serializable`, and `binder is None` makes `attribute_name =
prop.actual_name`).  `fuel` bounds nesting depth and is consumed when a
property or list recurses into a nested value; Python recursion is
unbounded, so every theorem quantifies over or instantiates it. -/
def serialize (s : Schema) (fuel : Nat) (v : Value) : Except SerErr Value :=
  match fuel, v with
  | _, .none => .ok .none
  | f, .obj cls attrs =>
    match serPropsGo s f attrs (s cls) [] 0 with
    | .error e => .error e
    | .ok (kvs, found) => .ok (if found == 0 then .obj cls attrs else .dict kvs)
  | 0, .list _ => .error .outOfFuel
  | f + 1, .list xs =>
    match serializeList s f xs with
    | .error e => .error e
    | .ok ws => .ok (.list ws)
  | _, w => .ok w
termination_by (fuel, 3, 0)

/-- Element-wise serialization of a Python list (the list comprehension
`[serialize(x) for x in ...]`). -/
def serializeList (s : Schema) (fuel : Nat) (xs : List Value) : Except SerErr (List Value) :=
  match xs with
  | [] => .ok []
  | x :: rest =>
    match serialize s fuel x with
    | .error e => .error e
    | .ok w =>
      match serializeList s fuel rest with
      | .error e => .error e
      | .ok ws => .ok (w :: ws)
termination_by (fuel, 4, xs.length)

/-- One iteration of the `serialize` property loop: the optional wire
entry this property contributes, and its increment to `found_props`
(1 when the attribute is present, 0 when a default is emitted or the
property is skipped). -/
def serEntry (s : Schema) (fuel : Nat) (attrs : List (String × Value)) (p : TProp) :
    Except SerErr (Option Value × Nat) :=
  if hasattrB attrs p then
    if p.isList then
      match fuel with
      | 0 => .error .outOfFuel
      | f + 1 =>
        match pyIterE (getattrPy attrs p) with
        | .error e => .error e
        | .ok elems =>
          match serializeList s f elems with
          | .error e => .error e
          | .ok ws => .ok (some (.list ws), 1)
    else if p.isComplex then
      match fuel with
      | 0 => .error .outOfFuel
      | f + 1 =>
        match serialize s f (getattrPy attrs p) with
        | .error e => .error e
        | .ok w => .ok (some w, 1)
    else .ok (some (getattrPy attrs p), 1)
  else if p.required then .error (.missingRequired p.actualName)
  else
    match p.defaultFactory with
    | some d => .ok (some d, 0)
    | Option.none => .ok (Option.none, 0)
termination_by (fuel, 1, 0)

/-- The `serialize` property loop: folds `serEntry` over the property
list, inserting each contributed entry into the result dict under the
property's wire name and accumulating `found_props`. -/
def serPropsGo (s : Schema) (fuel : Nat) (attrs : List (String × Value)) :
    List TProp → List (String × Value) → Nat →
    Except SerErr (List (String × Value) × Nat)
  | [], acc, found => .ok (acc, found)
  | p :: rest, acc, found =>
    match serEntry s fuel attrs p with
    | .error e => .error e
    | .ok (some v, inc) =>
      serPropsGo s fuel attrs rest (dictInsert acc (wireName p) v) (found + inc)
    | .ok (Option.none, inc) => serPropsGo s fuel attrs rest acc (found + inc)
termination_by props _a _b => (fuel, 2, props.length)

end

mutual

/-- Embedding of `deserialize`
(`src/sjd/serialization/_deserializer.py`).  Falsy data returns `None`
before anything else is consulted.  Otherwise the target type's
property list drives the input map; if none of the wire names occurred
in the data (`found_props == 0`) the data is treated as opaque (decoded
element-wise when it is a list, returned unchanged otherwise).  The
final construction (`entity(**inputs)` for `__json_init__` classes,
else `entity()` followed by `setattr` for every input — with
`dont_inits` assigned after construction in the first branch) is
modelled as an instance whose `__dict__` is exactly the input map,
which is what both branches produce for entity constructors that store
their keyword arguments verbatim (the pattern required of entity
classes, compare the `__init__` bodies in the examples and tests). -/
def deserialize (s : Schema) (fuel : Nat) (t : String) (data : Value) :
    Except SerErr (Option Value) :=
  if pyTruthy data = false then .ok Option.none
  else deserializeGo s fuel t data
termination_by (fuel, 3, 1)

/-- Body of `deserialize` past the falsy guard: the property loop, the
opaque fallback, and entity construction. -/
def deserializeGo (s : Schema) (fuel : Nat) (t : String) (data : Value) :
    Except SerErr (Option Value) :=
  match desPropsGo s fuel data (s t) [] 0 with
  | .error e => .error e
  | .ok (inputs, found) =>
    if found == 0 then
      match data with
      | .list xs =>
        match fuel with
        | 0 => .error .outOfFuel
        | f + 1 =>
          match desList s f t xs with
          | .error e => .error e
          | .ok ys => .ok (some (.list ys))
      | _ => .ok (some data)
    else .ok (some (.obj t inputs))
termination_by (fuel, 3, 0)

/-- Element-wise deserialization of a list (the comprehension
`[deserialize(tp, x) for x in ...]`); a `None` result is the Python
`None` element, modelled as `Value.none`. -/
def desList (s : Schema) (fuel : Nat) (t : String) (xs : List Value) :
    Except SerErr (List Value) :=
  match xs with
  | [] => .ok []
  | x :: rest =>
    match deserialize s fuel t x with
    | .error e => .error e
    | .ok o =>
      match desList s fuel t rest with
      | .error e => .error e
      | .ok ys => .ok (o.getD .none :: ys)
termination_by (fuel, 4, xs.length)

/-- One iteration of the `deserialize` property loop: the optional
entry contributed to the input map (keyed by the attribute name) and
the increment to `found_props`.  The membership test `j_prop_name not
in data` runs first and can itself raise on non-container data. -/
def desEntry (s : Schema) (fuel : Nat) (data : Value) (p : TProp) :
    Except SerErr (Option Value × Nat) :=
  match pyContains data (wireName p) with
  | .error e => .error e
  | .ok c =>
    if c then
      match pyGetItem data (wireName p) with
      | .error e => .error e
      | .ok dv =>
        if p.isList then
          match fuel with
          | 0 => .error .outOfFuel
          | f + 1 =>
            match pyIterE dv with
            | .error e => .error e
            | .ok elems =>
              match desList s f p.typeOfEntity elems with
              | .error e => .error e
              | .ok ds => .ok (some (.list ds), 1)
        else if p.isComplex then
          match fuel with
          | 0 => .error .outOfFuel
          | f + 1 =>
            match deserialize s f p.typeOfEntity dv with
            | .error e => .error e
            | .ok o => .ok (some (o.getD .none), 1)
        else .ok (some dv, 1)
    else if p.required then .error (.missingRequired (wireName p))
    else
      match p.defaultFactory with
      | some d => .ok (some d, 0)
      | Option.none => .ok (Option.none, 0)
termination_by (fuel, 1, 0)

/-- The `deserialize` property loop: folds `desEntry` over the property
list, inserting each contributed value into the input map under the
attribute name and accumulating `found_props`. -/
def desPropsGo (s : Schema) (fuel : Nat) (data : Value) :
    List TProp → List (String × Value) → Nat →
    Except SerErr (List (String × Value) × Nat)
  | [], acc, found => .ok (acc, found)
  | p :: rest, acc, found =>
    match desEntry s fuel data p with
    | .error e => .error e
    | .ok (some v, inc) =>
      desPropsGo s fuel data rest (dictInsert acc p.actualName v) (found + inc)
    | .ok (Option.none, inc) => desPropsGo s fuel data rest acc (found + inc)
termination_by props _a _b => (fuel, 2, props.length)

end

/-- Scalar values (`int`, `str`, `bool`) — Python classes that carry no
`TProperty` members and are not containers. -/
def isPrim : Value → Bool
  | .int _ => true
  | .str _ => true
  | .bool _ => true
  | _ => false

/-- No duplicates in a list of names. -/
def bnodup : List String → Bool
  | [] => true
  | x :: xs => !(xs.contains x) && bnodup xs

/-- Core shape of a safe list/complex element, parametrized by the
instance-safety check used for nested objects. -/
def elemSafeCore (s : Schema) (objS : String → List (String × Value) → Bool)
    (ty : String) : Value → Bool
  | .none => true
  | .obj cls a2 => cls == ty && objS cls a2
  | .bool b => b && (s ty).isEmpty
  | .int n => (n != 0) && (s ty).isEmpty
  | .str st => (st != "") && (s ty).isEmpty
  | _ => false

/-- An entity instance in the round-trip-safe fragment: its class's
properties have pairwise distinct wire names and attribute names, at
least one property is present on the instance (so the encoded form is a
non-empty tree), and every property round-trips — a present list
attribute holds a list of safe elements, a present complex attribute a
safe element, scalars are always safe, and an absent optional
property's default (if any) is a scalar, the empty list or `None` —
exactly the default factories the code base installs.  A safe element
is `None`, a truthy scalar whose declared type carries no properties,
or a safe instance of the declared type.  `fuel` bounds nesting depth
in step with `serialize`; at depth 0 only scalar properties fit. -/
def objSafe (s : Schema) : Nat → String → List (String × Value) → Bool
  | 0, t, attrs =>
    bnodup ((s t).map wireName) && bnodup ((s t).map (fun p => p.actualName)) &&
    (s t).any (fun p => hasattrB attrs p) &&
    (s t).all (fun p =>
      if hasattrB attrs p then !p.isList && !p.isComplex
      else
        match p.defaultFactory with
        | some _ => !p.isList && !p.isComplex
        | Option.none => true)
  | f + 1, t, attrs =>
    bnodup ((s t).map wireName) && bnodup ((s t).map (fun p => p.actualName)) &&
    (s t).any (fun p => hasattrB attrs p) &&
    (s t).all (fun p =>
      if hasattrB attrs p then
        if p.isList then
          match getattrPy attrs p with
          | .list xs =>
            xs.all (fun x => elemSafeCore s (fun cl a2 => objSafe s f cl a2) p.typeOfEntity x)
          | _ => false
        else if p.isComplex then
          elemSafeCore s (fun cl a2 => objSafe s f cl a2) p.typeOfEntity (getattrPy attrs p)
        else true
      else
        match p.defaultFactory with
        | some d =>
          if p.isList then d == .list []
          else if p.isComplex then d == .none
          else true
        | Option.none => true)

/-- A value stored in a list or complex property that round-trips at
nesting depth `g`. -/
def elemSafe (s : Schema) (g : Nat) (ty : String) (x : Value) : Bool :=
  elemSafeCore s (fun cl a2 => objSafe s g cl a2) ty x

/-- All elements of a list attribute are safe. -/
def elemsSafe (s : Schema) (g : Nat) (ty : String) (xs : List Value) : Bool :=
  xs.all (fun x => elemSafe s g ty x)

/-- The per-property safety condition of `objSafe`. -/
def propSafeB (s : Schema) : Nat → List (String × Value) → TProp → Bool
  | 0, attrs, p =>
    if hasattrB attrs p then !p.isList && !p.isComplex
    else
      match p.defaultFactory with
      | some _ => !p.isList && !p.isComplex
      | Option.none => true
  | f + 1, attrs, p =>
    if hasattrB attrs p then
      if p.isList then
        match getattrPy attrs p with
        | .list xs => elemsSafe s f p.typeOfEntity xs
        | _ => false
      else if p.isComplex then elemSafe s f p.typeOfEntity (getattrPy attrs p)
      else true
    else
      match p.defaultFactory with
      | some d =>
        if p.isList then d == .list []
        else if p.isComplex then d == .none
        else true
      | Option.none => true

/-- All properties of a list are safe. -/
def propsSafeB (s : Schema) (fuel : Nat) (attrs : List (String × Value))
    (props : List TProp) : Bool :=
  props.all (fun p => propSafeB s fuel attrs p)

/-- The instance-level predicate decomposes into name distinctness, a
present property, and per-property safety. -/
theorem objSafe_unfold (s : Schema) (fuel : Nat) (t : String)
    (attrs : List (String × Value)) :
    objSafe s fuel t attrs =
      (bnodup ((s t).map wireName) && bnodup ((s t).map (fun p => p.actualName)) &&
        (s t).any (fun p => hasattrB attrs p) && propsSafeB s fuel attrs (s t)) := by
  cases fuel with
  | zero => rfl
  | succ f => rfl

/-- Auxiliary: the `serialize` property loop leaves `found_props` at 0
and only ever emits defaults when every property of the list is absent
and optional. -/
theorem serPropsGo_all_absent (s : Schema) (fuel : Nat) (attrs : List (String × Value)) :
    ∀ (props : List TProp) (acc : List (String × Value)),
    (∀ p ∈ props, hasattrB attrs p = false ∧ p.required = false) →
    ∃ acc2, serPropsGo s fuel attrs props acc 0 = .ok (acc2, 0) := by
  intro props
  induction props with
  | nil => intro acc _; exact ⟨acc, by simp [serPropsGo]⟩
  | cons p rest ih =>
    intro acc h
    have hp := h p (List.mem_cons_self p rest)
    have hrest : ∀ q ∈ rest, hasattrB attrs q = false ∧ q.required = false :=
      fun q hq => h q (List.mem_cons_of_mem p hq)
    rw [serPropsGo]
    rw [serEntry.eq_def]
    simp only [hp.1, hp.2, Bool.false_eq_true, if_false]
    match hdf : p.defaultFactory with
    | some d =>
      obtain ⟨acc2, h2⟩ := ih (dictInsert acc (wireName p) d) hrest
      exact ⟨acc2, h2⟩
    | Option.none =>
      obtain ⟨acc2, h2⟩ := ih acc hrest
      exact ⟨acc2, h2⟩

/-- C9: `serialize`'s opaque pass-through is decided by the properties
found on the instance.  If no declared property of the entity's class
is present as an attribute (and all are optional, so no
`MissingRequiredField` fires), `serialize` returns the entity object
itself unchanged — not a key-value tree — and any defaults emitted for
absent optional properties into the intermediate dict are discarded. -/
theorem c9_opaquePassThrough (s : Schema) (fuel : Nat) (cls : String)
    (attrs : List (String × Value))
    (h : ∀ p ∈ s cls, hasattrB attrs p = false ∧ p.required = false) :
    serialize s fuel (.obj cls attrs) = .ok (.obj cls attrs) := by
  obtain ⟨acc2, h2⟩ := serPropsGo_all_absent s fuel attrs (s cls) [] h
  simp only [serialize, h2]
  rfl

/-- Witness for C9: a concrete entity class with two optional
properties — one carrying a default factory — none present on the
instance (the attributes live elsewhere, as for a `PropertyBinder` or
the master entity's redirected slave attribute): the instance is
returned as-is, defaults discarded. -/
def c9schema : Schema := fun t =>
  if t == "Bare" then
    [{actualName := "hidden_a", descriptorBacked := false,
      defaultFactory := some (.int 0)},
     {actualName := "hidden_b", descriptorBacked := false}]
  else []

theorem c9_opaquePassThrough_witness :
    serialize c9schema 4 (.obj "Bare" [("other", .int 3)]) =
      .ok (.obj "Bare" [("other", .int 3)]) :=
  c9_opaquePassThrough c9schema 4 "Bare" [("other", .int 3)] (by decide)

/-- C10: for every target type and schema, `deserialize` returns `None`
on falsy data (`None`, `0`, `False`, the empty string, list or dict)
before consulting any field descriptor: no `MissingRequiredField` is
raised for an empty tree even when the type has required fields, and an
empty tree never decodes to a default-populated entity even when every
field is optional with a default. -/
theorem c10_falsyDecodesNone (s : Schema) (fuel : Nat) (t : String) (data : Value)
    (h : pyTruthy data = false) :
    deserialize s fuel t data = .ok Option.none := by
  rw [deserialize]
  simp [h]

/-- Witness for C10: a type with a required field and one with an
optional defaulted field both decode every falsy shape to `None`. -/
def c10schema : Schema := fun t =>
  if t == "Req" then [{actualName := "must", required := true}]
  else if t == "Opt" then [{actualName := "may", defaultFactory := some (.str "d")}]
  else []

theorem c10_falsyDecodesNone_witness :
    deserialize c10schema 5 "Req" (.dict []) = .ok Option.none ∧
      deserialize c10schema 5 "Opt" (.dict []) = .ok Option.none ∧
      deserialize c10schema 5 "Req" .none = .ok Option.none ∧
      deserialize c10schema 5 "Opt" (.int 0) = .ok Option.none ∧
      deserialize c10schema 5 "Req" (.str "") = .ok Option.none ∧
      deserialize c10schema 5 "Opt" (.list []) = .ok Option.none :=
  ⟨c10_falsyDecodesNone _ 5 "Req" _ (by decide),
   c10_falsyDecodesNone _ 5 "Opt" _ (by decide),
   c10_falsyDecodesNone _ 5 "Req" _ (by decide),
   c10_falsyDecodesNone _ 5 "Opt" _ (by decide),
   c10_falsyDecodesNone _ 5 "Req" _ (by decide),
   c10_falsyDecodesNone _ 5 "Opt" _ (by decide)⟩

theorem alookup_nil (k : String) : alookup [] k = Option.none := rfl

theorem alookup_append_none {a : List (String × Value)} {k : String}
    (h : alookup a k = Option.none) (b : List (String × Value)) :
    alookup (a ++ b) k = alookup b k := by
  induction a with
  | nil => simp
  | cons kv rest ih =>
    cases kv with
    | mk k1 v1 =>
      simp only [alookup, List.cons_append] at h ⊢
      by_cases hk : (k1 == k) = true
      · simp only [hk, if_true] at h
        exact absurd h (by simp)
      · simp only [hk, Bool.false_eq_true, if_false] at h ⊢
        exact ih h

theorem alookup_append_some {a : List (String × Value)} {k : String} {v : Value}
    (h : alookup a k = some v) (b : List (String × Value)) :
    alookup (a ++ b) k = some v := by
  induction a with
  | nil => simp [alookup] at h
  | cons kv rest ih =>
    cases kv with
    | mk k1 v1 =>
      simp only [alookup, List.cons_append] at h ⊢
      by_cases hk : (k1 == k) = true
      · simp only [hk, if_true] at h ⊢; exact h
      · simp only [hk, if_false, Bool.false_eq_true] at h ⊢
        exact ih h

theorem dictInsert_fresh {acc : List (String × Value)} {k : String}
    (h : alookup acc k = Option.none) (v : Value) :
    dictInsert acc k v = acc ++ [(k, v)] := by
  induction acc with
  | nil => rfl
  | cons kv rest ih =>
    cases kv with
    | mk k1 v1 =>
      simp only [alookup] at h
      by_cases hk : (k1 == k) = true
      · simp [hk] at h
      · simp only [dictInsert, hk, if_false, Bool.false_eq_true, List.cons_append]
        simp only [hk, Bool.false_eq_true, if_false] at h
        rw [ih h]

theorem alookup_isSome_any (l : List (String × Value)) (k : String) :
    (alookup l k).isSome = l.any (fun kv => kv.1 == k) := by
  induction l with
  | nil => rfl
  | cons kv rest ih =>
    cases kv with
    | mk k1 v1 =>
      simp only [alookup, List.any_cons]
      by_cases hk : (k1 == k) = true
      · simp [hk]
      · simp only [hk, Bool.false_eq_true, if_false, Bool.false_or]
        exact ih

/-- Generic form of the two property loops: fold an entry function over
the property list, inserting contributed values under `keyOf` and
accumulating `found_props`. -/
def propsGoG (entry : TProp → Except SerErr (Option Value × Nat))
    (keyOf : TProp → String) :
    List TProp → List (String × Value) → Nat →
    Except SerErr (List (String × Value) × Nat)
  | [], acc, found => .ok (acc, found)
  | p :: rest, acc, found =>
    match entry p with
    | .error e => .error e
    | .ok (some v, inc) => propsGoG entry keyOf rest (dictInsert acc (keyOf p) v) (found + inc)
    | .ok (Option.none, inc) => propsGoG entry keyOf rest acc (found + inc)

theorem serPropsGo_eq_G (s : Schema) (fuel : Nat) (attrs : List (String × Value)) :
    ∀ (props : List TProp) (acc : List (String × Value)) (found : Nat),
    serPropsGo s fuel attrs props acc found =
      propsGoG (serEntry s fuel attrs) wireName props acc found := by
  intro props
  induction props with
  | nil => intro acc found; rw [serPropsGo]; rfl
  | cons p rest ih =>
    intro acc found
    rw [serPropsGo, propsGoG]
    match serEntry s fuel attrs p with
    | .error e => rfl
    | .ok (some v, inc) => exact ih _ _
    | .ok (Option.none, inc) => exact ih _ _

theorem desPropsGo_eq_G (s : Schema) (fuel : Nat) (data : Value) :
    ∀ (props : List TProp) (acc : List (String × Value)) (found : Nat),
    desPropsGo s fuel data props acc found =
      propsGoG (desEntry s fuel data) (fun p => p.actualName) props acc found := by
  intro props
  induction props with
  | nil => intro acc found; rw [desPropsGo]; rfl
  | cons p rest ih =>
    intro acc found
    rw [desPropsGo, propsGoG]
    match desEntry s fuel data p with
    | .error e => rfl
    | .ok (some v, inc) => exact ih _ _
    | .ok (Option.none, inc) => exact ih _ _

/-- The wire entries a property list contributes, given each property's
contributed value. -/
def entriesOf (ev : TProp → Option Value) (keyOf : TProp → String)
    (props : List TProp) : List (String × Value) :=
  props.filterMap (fun p => (ev p).map (fun v => (keyOf p, v)))

/-- If every entry call succeeds, the generic loop appends exactly the
contributed entries (under distinct fresh keys) and adds up the
increments. -/
theorem propsGoG_spec (entry : TProp → Except SerErr (Option Value × Nat))
    (keyOf : TProp → String) (ev : TProp → Option Value) (ic : TProp → Nat) :
    ∀ (props : List TProp) (acc : List (String × Value)) (found : Nat),
    (∀ p ∈ props, entry p = .ok (ev p, ic p)) →
    (∀ p ∈ props, alookup acc (keyOf p) = Option.none) →
    bnodup (props.map keyOf) = true →
    propsGoG entry keyOf props acc found =
      .ok (acc ++ entriesOf ev keyOf props, found + (props.map ic).sum) := by
  intro props
  induction props with
  | nil => intro acc found _ _ _; simp [propsGoG, entriesOf]
  | cons p rest ih =>
    intro acc found he hfr hnd
    have hp := he p (List.mem_cons_self p rest)
    have hfp := hfr p (List.mem_cons_self p rest)
    simp only [bnodup, List.map_cons, Bool.and_eq_true] at hnd
    have hnc : ¬ keyOf p ∈ rest.map keyOf := by simpa using hnd.1
    have hrest_he : ∀ q ∈ rest, entry q = .ok (ev q, ic q) :=
      fun q hq => he q (List.mem_cons_of_mem p hq)
    rw [propsGoG]
    match hev : ev p with
    | some v =>
      rw [hev] at hp
      rw [hp]
      dsimp only
      have hfr2 : ∀ q ∈ rest, alookup (acc ++ [(keyOf p, v)]) (keyOf q) = Option.none := by
        intro q hq
        rw [alookup_append_none (hfr q (List.mem_cons_of_mem p hq))]
        have hne : (keyOf p == keyOf q) = false := by
          apply beq_eq_false_iff_ne.2
          intro hEq
          exact hnc (hEq ▸ List.mem_map_of_mem keyOf hq)
        simp [alookup, hne]
      rw [dictInsert_fresh hfp v]
      rw [ih (acc ++ [(keyOf p, v)]) (found + ic p) hrest_he hfr2 hnd.2]
      simp only [entriesOf, List.filterMap_cons, hev, Option.map_some,
        Option.map_some', List.append_assoc, List.singleton_append, List.map_cons,
        List.sum_cons, Nat.add_assoc]
    | Option.none =>
      rw [hev] at hp
      rw [hp]
      dsimp only
      rw [ih acc (found + ic p) hrest_he
        (fun q hq => hfr q (List.mem_cons_of_mem p hq)) hnd.2]
      simp only [entriesOf, List.filterMap_cons, hev, Option.map_none,
        Option.map_none', List.map_cons, List.sum_cons, Nat.add_assoc]

/-- If the generic loop succeeds, each entry call succeeded. -/
theorem propsGoG_ok_entry (entry : TProp → Except SerErr (Option Value × Nat))
    (keyOf : TProp → String) :
    ∀ (props : List TProp) (acc : List (String × Value)) (found : Nat)
    (r : List (String × Value) × Nat),
    propsGoG entry keyOf props acc found = .ok r →
    ∀ p ∈ props, ∃ o i, entry p = .ok (o, i) := by
  intro props
  induction props with
  | nil => intro _ _ _ _ p hp; cases hp
  | cons p rest ih =>
    intro acc found r hgo q hq
    rw [propsGoG] at hgo
    match hp : entry p with
    | .error e => rw [hp] at hgo; cases hgo
    | .ok (some v, inc) =>
      rw [hp] at hgo; dsimp only at hgo
      rcases List.mem_cons.1 hq with hq1 | hq2
      · exact hq1 ▸ ⟨some v, inc, hp⟩
      · exact ih _ _ _ hgo q hq2
    | .ok (Option.none, inc) =>
      rw [hp] at hgo; dsimp only at hgo
      rcases List.mem_cons.1 hq with hq1 | hq2
      · exact hq1 ▸ ⟨Option.none, inc, hp⟩
      · exact ih _ _ _ hgo q hq2

/-- The value an entry function contributes for a property (junk on
error paths; only used where success is known). -/
def evOf (entry : TProp → Except SerErr (Option Value × Nat)) (p : TProp) : Option Value :=
  match entry p with
  | .ok (o, _) => o
  | .error _ => Option.none

/-- The `found_props` increment an entry function contributes. -/
def icOf (entry : TProp → Except SerErr (Option Value × Nat)) (p : TProp) : Nat :=
  match entry p with
  | .ok (_, i) => i
  | .error _ => 0

theorem entry_eval {entry : TProp → Except SerErr (Option Value × Nat)} {p : TProp}
    (h : ∃ o i, entry p = .ok (o, i)) :
    entry p = .ok (evOf entry p, icOf entry p) := by
  obtain ⟨o, i, hoi⟩ := h
  rw [evOf, icOf, hoi]

theorem alookup_entriesOf_of_notMem (ev : TProp → Option Value) (keyOf : TProp → String)
    (k : String) :
    ∀ props : List TProp, ¬ k ∈ props.map keyOf →
    alookup (entriesOf ev keyOf props) k = Option.none := by
  intro props
  induction props with
  | nil => intro _; rfl
  | cons p rest ih =>
    intro hk
    simp only [List.map_cons, List.mem_cons, not_or] at hk
    rw [entriesOf, List.filterMap_cons]
    match hev : ev p with
    | some v =>
      simp only [Option.map_some']
      rw [alookup]
      have : (keyOf p == k) = false := beq_eq_false_iff_ne.2 (fun h => hk.1 h.symm)
      rw [this]
      simp only [Bool.false_eq_true, if_false]
      exact ih hk.2
    | Option.none =>
      simp only [Option.map_none']
      exact ih hk.2

/-- Looking up a property's key in the contributed entries recovers
exactly that property's contribution, provided keys are distinct. -/
theorem alookup_entriesOf_self (ev : TProp → Option Value) (keyOf : TProp → String) :
    ∀ props : List TProp, bnodup (props.map keyOf) = true →
    ∀ p ∈ props, alookup (entriesOf ev keyOf props) (keyOf p) = ev p := by
  intro props
  induction props with
  | nil => intro _ p hp; cases hp
  | cons q rest ih =>
    intro hnd p hp
    simp only [bnodup, List.map_cons, Bool.and_eq_true] at hnd
    have hnc : ¬ keyOf q ∈ rest.map keyOf := by simpa using hnd.1
    rw [entriesOf, List.filterMap_cons]
    rcases List.mem_cons.1 hp with hp1 | hp2
    · subst hp1
      match hev : ev p with
      | some v =>
        simp only [Option.map_some']
        rw [alookup]
        simp
      | Option.none =>
        simp only [Option.map_none']
        rw [← entriesOf]
        exact (alookup_entriesOf_of_notMem ev keyOf (keyOf p) rest hnc).trans hev.symm ▸
          (alookup_entriesOf_of_notMem ev keyOf (keyOf p) rest hnc)
    · match hev : ev q with
      | some v =>
        simp only [Option.map_some']
        rw [alookup]
        have hne : (keyOf q == keyOf p) = false := by
          apply beq_eq_false_iff_ne.2
          intro hEq
          exact hnc (hEq ▸ List.mem_map_of_mem keyOf hp2)
        rw [hne]
        simp only [Bool.false_eq_true, if_false]
        rw [← entriesOf]
        exact ih hnd.2 p hp2
      | Option.none =>
        simp only [Option.map_none']
        rw [← entriesOf]
        exact ih hnd.2 p hp2

theorem propsSafeB_mem (s : Schema) (fuel : Nat) (attrs : List (String × Value)) :
    ∀ props : List TProp, propsSafeB s fuel attrs props = true →
    ∀ p ∈ props, propSafeB s fuel attrs p = true := by
  intro props hall p hp
  rw [propsSafeB, List.all_eq_true] at hall
  exact hall p hp

/-- A present property always contributes a wire entry and counts 1
toward `found_props`. -/
theorem serEntry_present {s : Schema} {fuel : Nat} {attrs : List (String × Value)}
    {p : TProp} {o : Option Value} {i : Nat}
    (hpres : hasattrB attrs p = true)
    (h : serEntry s fuel attrs p = .ok (o, i)) : o.isSome = true ∧ i = 1 := by
  rw [serEntry.eq_def, hpres] at h
  simp only [reduceIte] at h
  by_cases hl : p.isList = true
  · rw [hl] at h
    simp only [reduceIte] at h
    match fuel with
    | 0 => exact absurd h (by simp)
    | f + 1 =>
      dsimp only at h
      cases hx : pyIterE (getattrPy attrs p) with
      | error e => rw [hx] at h; exact absurd h (by simp)
      | ok elems =>
        rw [hx] at h
        dsimp only at h
        cases hy : serializeList s f elems with
        | error e => rw [hy] at h; exact absurd h (by simp)
        | ok ws =>
          rw [hy] at h
          dsimp only at h
          cases h
          exact ⟨rfl, rfl⟩
  · rw [Bool.not_eq_true] at hl
    rw [hl] at h
    simp only [Bool.false_eq_true, if_false] at h
    by_cases hc : p.isComplex = true
    · rw [hc] at h
      simp only [reduceIte] at h
      match fuel with
      | 0 => exact absurd h (by simp)
      | f + 1 =>
        dsimp only at h
        cases hx : serialize s f (getattrPy attrs p) with
        | error e => rw [hx] at h; exact absurd h (by simp)
        | ok w =>
          rw [hx] at h
          dsimp only at h
          cases h
          exact ⟨rfl, rfl⟩
    · rw [Bool.not_eq_true] at hc
      rw [hc] at h
      simp only [Bool.false_eq_true, if_false] at h
      cases h
      exact ⟨rfl, rfl⟩

/-- Round-trip property for values sitting in list or complex
properties at a given nesting depth. -/
def ElemRTP (s : Schema) (g : Nat) : Prop :=
  ∀ (ty : String) (x w : Value), elemSafe s g ty x = true → serialize s g x = .ok w →
    ∃ o : Option Value, deserialize s g ty w = .ok o ∧
      serialize s g (o.getD .none) = .ok w

/-- Round-trip property for entity instances at a given nesting
depth. -/
def MainRTP (s : Schema) (f : Nat) : Prop :=
  ∀ (t : String) (attrs : List (String × Value)) (w : Value),
    objSafe s f t attrs = true → serialize s f (.obj t attrs) = .ok w →
    ∃ attrs2, deserialize s f t w = .ok (some (.obj t attrs2)) ∧
      serialize s f (.obj t attrs2) = .ok w

theorem listRT (s : Schema) (g : Nat) (hE : ElemRTP s g) (ty : String) :
    ∀ (xs ws : List Value), elemsSafe s g ty xs = true →
    serializeList s g xs = .ok ws →
    ∃ ds, desList s g ty ws = .ok ds ∧ serializeList s g ds = .ok ws := by
  intro xs
  induction xs with
  | nil =>
    intro ws _ hser
    rw [serializeList] at hser
    cases hser
    exact ⟨[], by rw [desList], by rw [serializeList]⟩
  | cons x rest ih =>
    intro ws hsafe hser
    rw [elemsSafe, List.all_cons, Bool.and_eq_true] at hsafe
    rw [serializeList] at hser
    cases hx : serialize s g x with
    | error e => rw [hx] at hser; exact absurd hser (by simp)
    | ok w1 =>
      rw [hx] at hser
      dsimp only at hser
      cases hrest : serializeList s g rest with
      | error e => rw [hrest] at hser; exact absurd hser (by simp)
      | ok wrest =>
        rw [hrest] at hser
        dsimp only at hser
        cases hser
        obtain ⟨o1, hdes1, hser1⟩ := hE ty x w1 hsafe.1 hx
        obtain ⟨ds, hdesr, hserr⟩ := ih wrest hsafe.2 hrest
        refine ⟨o1.getD .none :: ds, ?_, ?_⟩
        · rw [desList, hdes1]
          dsimp only
          rw [hdesr]
        · rw [serializeList, hser1]
          dsimp only
          rw [hserr]

theorem pyContains_dict (W : List (String × Value)) (k : String) :
    pyContains (.dict W) k = .ok ((alookup W k).isSome) := by
  rw [pyContains, alookup_isSome_any]

theorem pyGetItem_dict_some {W : List (String × Value)} {k : String} {v : Value}
    (h : alookup W k = some v) : pyGetItem (.dict W) k = .ok v := by
  rw [pyGetItem, h]


theorem serEntry_scalar_eval {s : Schema} {fuel : Nat} {attrs : List (String × Value)}
    {p : TProp} (hpres : hasattrB attrs p = true) (hl : p.isList = false)
    (hc : p.isComplex = false) :
    serEntry s fuel attrs p = .ok (some (getattrPy attrs p), 1) := by
  rw [serEntry.eq_def, hpres, hl, hc]
  simp only [reduceIte, Bool.false_eq_true, if_false]

theorem serEntry_list_eval {s : Schema} {g : Nat} {attrs : List (String × Value)}
    {p : TProp} (hpres : hasattrB attrs p = true) (hl : p.isList = true)
    {xs ws : List Value} (hga : getattrPy attrs p = .list xs)
    (hsl : serializeList s g xs = .ok ws) :
    serEntry s (g + 1) attrs p = .ok (some (.list ws), 1) := by
  rw [serEntry.eq_def, hpres, hl]
  simp only [reduceIte]
  rw [hga, pyIterE]
  dsimp only
  rw [hsl]

theorem serEntry_complex_eval {s : Schema} {g : Nat} {attrs : List (String × Value)}
    {p : TProp} (hpres : hasattrB attrs p = true) (hl : p.isList = false)
    (hc : p.isComplex = true) {wv : Value}
    (hsx : serialize s g (getattrPy attrs p) = .ok wv) :
    serEntry s (g + 1) attrs p = .ok (some wv, 1) := by
  rw [serEntry.eq_def, hpres, hl, hc]
  simp only [reduceIte, Bool.false_eq_true, if_false]
  rw [hsx]

theorem serEntry_absent_eval {s : Schema} {fuel : Nat} {attrs : List (String × Value)}
    {p : TProp} (hpres : hasattrB attrs p = false) (hreq : p.required = false) :
    serEntry s fuel attrs p = .ok (p.defaultFactory, 0) := by
  rw [serEntry.eq_def, hpres, hreq]
  simp only [Bool.false_eq_true, if_false]
  cases p.defaultFactory <;> rfl

theorem desEntry_scalar_eval {s : Schema} {fuel : Nat} {W : List (String × Value)}
    {p : TProp} (hl : p.isList = false) (hc : p.isComplex = false) {v : Value}
    (hW : alookup W (wireName p) = some v) :
    desEntry s fuel (.dict W) p = .ok (some v, 1) := by
  rw [desEntry.eq_def, pyContains_dict, hW]
  dsimp only
  simp only [Option.isSome_some, reduceIte]
  rw [pyGetItem_dict_some hW]
  dsimp only
  rw [hl, hc]
  simp only [Bool.false_eq_true, if_false]

theorem desEntry_list_eval {s : Schema} {g : Nat} {W : List (String × Value)}
    {p : TProp} (hl : p.isList = true) {ws ds : List Value}
    (hW : alookup W (wireName p) = some (.list ws))
    (hdl : desList s g p.typeOfEntity ws = .ok ds) :
    desEntry s (g + 1) (.dict W) p = .ok (some (.list ds), 1) := by
  rw [desEntry.eq_def, pyContains_dict, hW]
  dsimp only
  simp only [Option.isSome_some, reduceIte]
  rw [pyGetItem_dict_some hW]
  dsimp only
  rw [hl]
  simp only [reduceIte]
  rw [pyIterE]
  dsimp only
  rw [hdl]

theorem desEntry_complex_eval {s : Schema} {g : Nat} {W : List (String × Value)}
    {p : TProp} (hl : p.isList = false) (hc : p.isComplex = true) {v : Value}
    {ov : Option Value} (hW : alookup W (wireName p) = some v)
    (hdv : deserialize s g p.typeOfEntity v = .ok ov) :
    desEntry s (g + 1) (.dict W) p = .ok (some (ov.getD .none), 1) := by
  rw [desEntry.eq_def, pyContains_dict, hW]
  dsimp only
  simp only [Option.isSome_some, reduceIte]
  rw [pyGetItem_dict_some hW]
  dsimp only
  rw [hl, hc]
  simp only [Bool.false_eq_true, if_false, reduceIte]
  rw [hdv]

theorem desEntry_missing_eval {s : Schema} {fuel : Nat} {W : List (String × Value)}
    {p : TProp} (hW : alookup W (wireName p) = Option.none)
    (hreq : p.required = false) :
    desEntry s fuel (.dict W) p = .ok (p.defaultFactory, 0) := by
  rw [desEntry.eq_def, pyContains_dict, hW]
  dsimp only
  simp only [Option.isSome_none, Bool.false_eq_true, if_false]
  rw [hreq]
  simp only [Bool.false_eq_true, if_false]
  cases p.defaultFactory <;> rfl

theorem deserialize_none_eval (s : Schema) (g : Nat) (ty : String) :
    deserialize s g ty .none = .ok Option.none := by
  rw [deserialize]
  rfl

theorem serialize_none_eval (s : Schema) (g : Nat) :
    serialize s g .none = .ok .none := by
  rw [serialize]

/-- Core of the round-trip proof, per property: if a property's encode
step contributed `o` to the wire dict `W`, then its decode step against
`W` succeeds, and the re-encode step from any attribute dictionary that
stores exactly the decoded contribution reproduces `o`. -/
theorem propEntryRT (s : Schema) (f : Nat)
    (hE : ∀ g, f = g + 1 → ElemRTP s g)
    (attrs W : List (String × Value)) (p : TProp)
    (hsafe : propSafeB s f attrs p = true)
    (o : Option Value) (i : Nat)
    (hser : serEntry s f attrs p = .ok (o, i))
    (hW : alookup W (wireName p) = o) :
    ∃ oD iD, desEntry s f (.dict W) p = .ok (oD, iD) ∧
      (o.isSome = true → oD.isSome = true ∧ iD = 1) ∧
      ∀ attrs2, alookup attrs2 p.actualName = oD →
        serEntry s f attrs2 p = .ok (o, if oD.isSome then 1 else 0) := by
  by_cases hpres : hasattrB attrs p = true
  · by_cases hl : p.isList = true
    · -- present list property
      rw [serEntry.eq_def, hpres, hl] at hser
      simp only [reduceIte] at hser
      match f, hE, hsafe with
      | 0, _, _ => exact absurd hser (by simp)
      | g + 1, hE, hsafe =>
        dsimp only at hser
        rw [propSafeB, hpres] at hsafe
        simp only [reduceIte] at hsafe
        rw [hl] at hsafe
        simp only [reduceIte] at hsafe
        have hEg : ElemRTP s g := hE g rfl
        cases hga : getattrPy attrs p with
        | list xs =>
          rw [hga] at hser hsafe
          rw [pyIterE] at hser
          dsimp only at hser hsafe
          cases hsl : serializeList s g xs with
          | error e => rw [hsl] at hser; exact absurd hser (by simp)
          | ok ws =>
            rw [hsl] at hser
            dsimp only at hser
            cases hser
            obtain ⟨ds, hdl, hsl2⟩ := listRT s g hEg p.typeOfEntity xs ws hsafe hsl
            refine ⟨some (.list ds), 1, desEntry_list_eval hl hW hdl,
              fun _ => ⟨rfl, rfl⟩, ?_⟩
            intro attrs2 h2
            have hpres2 : hasattrB attrs2 p = true := by rw [hasattrB, h2]; simp
            have hga2 : getattrPy attrs2 p = .list ds := by rw [getattrPy, h2]
            rw [serEntry_list_eval hpres2 hl hga2 hsl2]
            simp
        | none => rw [hga] at hsafe; exact absurd hsafe (by simp)
        | bool b => rw [hga] at hsafe; exact absurd hsafe (by simp)
        | int n => rw [hga] at hsafe; exact absurd hsafe (by simp)
        | str st => rw [hga] at hsafe; exact absurd hsafe (by simp)
        | dict kvs => rw [hga] at hsafe; exact absurd hsafe (by simp)
        | obj c a2 => rw [hga] at hsafe; exact absurd hsafe (by simp)
    · rw [Bool.not_eq_true] at hl
      by_cases hc : p.isComplex = true
      · -- present complex property
        rw [serEntry.eq_def, hpres, hl, hc] at hser
        simp only [Bool.false_eq_true, if_false, reduceIte] at hser
        match f, hE, hsafe with
        | 0, _, _ => exact absurd hser (by simp)
        | g + 1, hE, hsafe =>
          dsimp only at hser
          rw [propSafeB, hpres] at hsafe
          simp only [reduceIte] at hsafe
          rw [hl] at hsafe
          simp only [Bool.false_eq_true, if_false] at hsafe
          rw [hc] at hsafe
          simp only [reduceIte] at hsafe
          have hEg : ElemRTP s g := hE g rfl
          cases hsx : serialize s g (getattrPy attrs p) with
          | error e => rw [hsx] at hser; exact absurd hser (by simp)
          | ok wv =>
            rw [hsx] at hser
            dsimp only at hser
            cases hser
            obtain ⟨ov, hdv, hsv⟩ := hEg p.typeOfEntity (getattrPy attrs p) wv hsafe hsx
            refine ⟨some (ov.getD .none), 1, desEntry_complex_eval hl hc hW hdv,
              fun _ => ⟨rfl, rfl⟩, ?_⟩
            intro attrs2 h2
            have hpres2 : hasattrB attrs2 p = true := by rw [hasattrB, h2]; simp
            have hga2 : getattrPy attrs2 p = ov.getD .none := by rw [getattrPy, h2]
            rw [serEntry_complex_eval hpres2 hl hc (hga2 ▸ hsv)]
            simp
      · -- present scalar property
        rw [Bool.not_eq_true] at hc
        rw [serEntry_scalar_eval hpres hl hc] at hser
        cases hser
        refine ⟨some (getattrPy attrs p), 1, desEntry_scalar_eval hl hc hW,
          fun _ => ⟨rfl, rfl⟩, ?_⟩
        intro attrs2 h2
        have hpres2 : hasattrB attrs2 p = true := by rw [hasattrB, h2]; simp
        have hga2 : getattrPy attrs2 p = getattrPy attrs p := by rw [getattrPy, h2]
        rw [serEntry_scalar_eval hpres2 hl hc, hga2]
        simp
  · -- absent from the instance: optional, possibly emitting a default
    rw [Bool.not_eq_true] at hpres
    have hdescr : p.descriptorBacked = false := by
      rw [hasattrB, Bool.or_eq_false_iff] at hpres
      exact hpres.2
    by_cases hreq : p.required = true
    · rw [serEntry.eq_def, hpres, hreq] at hser
      simp only [Bool.false_eq_true, if_false, reduceIte] at hser
      exact absurd hser (by simp)
    · rw [Bool.not_eq_true] at hreq
      rw [serEntry_absent_eval hpres hreq] at hser
      cases hser
      cases hdf : p.defaultFactory with
      | some d =>
        rw [hdf] at hW
        by_cases hl : p.isList = true
        · match f, hE, hsafe with
          | 0, _, hsafe =>
            rw [propSafeB, hpres] at hsafe
            simp only [Bool.false_eq_true, if_false] at hsafe
            rw [hdf] at hsafe
            dsimp only at hsafe
            rw [hl] at hsafe
            simp at hsafe
          | g + 1, hE, hsafe =>
            rw [propSafeB, hpres] at hsafe
            simp only [Bool.false_eq_true, if_false] at hsafe
            rw [hdf] at hsafe
            dsimp only at hsafe
            rw [hl] at hsafe
            simp only [reduceIte] at hsafe
            have hdl : d = .list [] := eq_of_beq hsafe
            subst hdl
            have hdesl : desList s g p.typeOfEntity [] = .ok [] := by rw [desList]
            refine ⟨some (.list []), 1, desEntry_list_eval hl hW hdesl,
              fun _ => ⟨rfl, rfl⟩, ?_⟩
            intro attrs2 h2
            have hpres2 : hasattrB attrs2 p = true := by rw [hasattrB, h2]; simp
            have hga2 : getattrPy attrs2 p = .list [] := by rw [getattrPy, h2]
            have hsl2 : serializeList s g ([] : List Value) = .ok [] := by
              rw [serializeList]
            rw [serEntry_list_eval hpres2 hl hga2 hsl2]
            simp
        · rw [Bool.not_eq_true] at hl
          by_cases hc : p.isComplex = true
          · match f, hE, hsafe with
            | 0, _, hsafe =>
              rw [propSafeB, hpres] at hsafe
              simp only [Bool.false_eq_true, if_false] at hsafe
              rw [hdf] at hsafe
              dsimp only at hsafe
              rw [hc] at hsafe
              simp at hsafe
            | g + 1, hE, hsafe =>
              rw [propSafeB, hpres] at hsafe
              simp only [Bool.false_eq_true, if_false] at hsafe
              rw [hdf] at hsafe
              dsimp only at hsafe
              rw [hl] at hsafe
              simp only [Bool.false_eq_true, if_false] at hsafe
              rw [hc] at hsafe
              simp only [reduceIte] at hsafe
              have hdn : d = .none := eq_of_beq hsafe
              subst hdn
              refine ⟨some .none, 1,
                desEntry_complex_eval hl hc hW (deserialize_none_eval s g p.typeOfEntity),
                fun _ => ⟨rfl, rfl⟩, ?_⟩
              intro attrs2 h2
              have hpres2 : hasattrB attrs2 p = true := by rw [hasattrB, h2]; simp
              have hga2 : getattrPy attrs2 p = .none := by rw [getattrPy, h2]
              have hsx2 : serialize s g (getattrPy attrs2 p) = .ok .none := by
                rw [hga2]; exact serialize_none_eval s g
              rw [serEntry_complex_eval hpres2 hl hc hsx2]
              simp
          · rw [Bool.not_eq_true] at hc
            refine ⟨some d, 1, desEntry_scalar_eval hl hc hW,
              fun _ => ⟨rfl, rfl⟩, ?_⟩
            intro attrs2 h2
            have hpres2 : hasattrB attrs2 p = true := by rw [hasattrB, h2]; simp
            have hga2 : getattrPy attrs2 p = d := by rw [getattrPy, h2]
            rw [serEntry_scalar_eval hpres2 hl hc, hga2]
            simp
      | none =>
        rw [hdf] at hW
        refine ⟨Option.none, 0, ?_, by simp, ?_⟩
        · rw [desEntry_missing_eval hW hreq, hdf]
        · intro attrs2 h2
          have hpres2 : hasattrB attrs2 p = false := by
            rw [hasattrB, h2, hdescr]
            rfl
          rw [serEntry_absent_eval hpres2 hreq, hdf]
          simp

theorem serialize_int_eval (s : Schema) (g : Nat) (n : Int) :
    serialize s g (.int n) = .ok (.int n) := by
  rw [serialize] <;> simp

theorem serialize_str_eval (s : Schema) (g : Nat) (st : String) :
    serialize s g (.str st) = .ok (.str st) := by
  rw [serialize] <;> simp

theorem serialize_bool_eval (s : Schema) (g : Nat) (b : Bool) :
    serialize s g (.bool b) = .ok (.bool b) := by
  rw [serialize] <;> simp

/-- Decoding truthy data against a type with no properties returns the
data unchanged (the `found_props == 0` opaque fallback), for non-list
data. -/
theorem deserialize_opaque_eval (s : Schema) (g : Nat) (ty : String) (data : Value)
    (h1 : pyTruthy data = true) (h2 : s ty = [])
    (h3 : ∀ xs, data ≠ .list xs) :
    deserialize s g ty data = .ok (some data) := by
  cases data with
  | list xs => exact absurd rfl (h3 xs)
  | none => exact absurd h1 (by simp [pyTruthy])
  | bool b =>
    rw [deserialize, h1]
    simp only [Bool.true_eq_false, if_false]
    rw [deserializeGo, h2, desPropsGo] <;> simp
  | int n =>
    rw [deserialize, h1]
    simp only [Bool.true_eq_false, if_false]
    rw [deserializeGo, h2, desPropsGo] <;> simp
  | str st =>
    rw [deserialize, h1]
    simp only [Bool.true_eq_false, if_false]
    rw [deserializeGo, h2, desPropsGo] <;> simp
  | dict kvs =>
    rw [deserialize, h1]
    simp only [Bool.true_eq_false, if_false]
    rw [deserializeGo, h2, desPropsGo] <;> simp
  | obj c a2 =>
    rw [deserialize, h1]
    simp only [Bool.true_eq_false, if_false]
    rw [deserializeGo, h2, desPropsGo] <;> simp

/-- The element-level round trip follows from the instance-level one at
the same depth. -/
theorem elemRT_of_main (s : Schema) (g : Nat) (hM : MainRTP s g) : ElemRTP s g := by
  intro ty x w hsafe hser
  match x with
  | .none =>
    rw [serialize_none_eval] at hser
    cases hser
    exact ⟨Option.none, deserialize_none_eval s g ty, serialize_none_eval s g⟩
  | .obj cls a2 =>
    rw [elemSafe, elemSafeCore, Bool.and_eq_true] at hsafe
    have hcls : cls = ty := eq_of_beq hsafe.1
    subst hcls
    obtain ⟨attrs2, hdes, hser2⟩ := hM cls a2 w hsafe.2 hser
    exact ⟨some (.obj cls attrs2), hdes, hser2⟩
  | .int n =>
    rw [elemSafe, elemSafeCore, Bool.and_eq_true] at hsafe
    rw [serialize_int_eval] at hser
    cases hser
    refine ⟨some (.int n), ?_, serialize_int_eval s g n⟩
    exact deserialize_opaque_eval s g ty (.int n) hsafe.1
      (List.isEmpty_iff.1 hsafe.2) (fun xs h => by cases h)
  | .str st =>
    rw [elemSafe, elemSafeCore, Bool.and_eq_true] at hsafe
    rw [serialize_str_eval] at hser
    cases hser
    refine ⟨some (.str st), ?_, serialize_str_eval s g st⟩
    exact deserialize_opaque_eval s g ty (.str st) hsafe.1
      (List.isEmpty_iff.1 hsafe.2) (fun xs h => by cases h)
  | .bool b =>
    rw [elemSafe, elemSafeCore, Bool.and_eq_true] at hsafe
    rw [serialize_bool_eval] at hser
    cases hser
    refine ⟨some (.bool b), ?_, serialize_bool_eval s g b⟩
    refine deserialize_opaque_eval s g ty (.bool b) ?_
      (List.isEmpty_iff.1 hsafe.2) (fun xs h => by cases h)
    rw [pyTruthy, hsafe.1]
  | .list xs => simp [elemSafe, elemSafeCore] at hsafe
  | .dict kvs => simp [elemSafe, elemSafeCore] at hsafe

theorem one_le_sum_map {props : List TProp} {ic : TProp → Nat} {p : TProp}
    (hp : p ∈ props) (h1 : ic p = 1) : 1 ≤ (props.map ic).sum := by
  induction props with
  | nil => cases hp
  | cons q rest ih =>
    rw [List.map_cons, List.sum_cons]
    rcases List.mem_cons.1 hp with h | h
    · subst h; omega
    · have := ih h; omega

set_option maxHeartbeats 1600000 in
/-- Instance-level round trip at depth `f`, given the element-level
round trip at depth `f - 1`. -/
theorem mainRT_core (s : Schema) (f : Nat) (hE : ∀ g, f = g + 1 → ElemRTP s g) :
    MainRTP s f := by
  intro t attrs w hsafe hser
  rw [objSafe_unfold] at hsafe
  simp only [Bool.and_eq_true] at hsafe
  obtain ⟨⟨⟨hnd1, hnd2⟩, hany⟩, hprops⟩ := hsafe
  rw [serialize, serPropsGo_eq_G] at hser
  cases hgo : propsGoG (serEntry s f attrs) wireName (s t) [] 0 with
  | error e => rw [hgo] at hser; exact absurd hser (by simp)
  | ok r =>
    obtain ⟨kvs, found⟩ := r
    rw [hgo] at hser
    dsimp only at hser
    have hok := propsGoG_ok_entry (serEntry s f attrs) wireName (s t) [] 0 _ hgo
    have he : ∀ p ∈ s t, serEntry s f attrs p =
        .ok (evOf (serEntry s f attrs) p, icOf (serEntry s f attrs) p) :=
      fun p hp => entry_eval (hok p hp)
    have hspec := propsGoG_spec (serEntry s f attrs) wireName
      (evOf (serEntry s f attrs)) (icOf (serEntry s f attrs)) (s t) [] 0 he
      (fun p _ => rfl) hnd1
    rw [hgo] at hspec
    have hkf := hspec
    simp only [List.nil_append, Nat.zero_add, Except.ok.injEq, Prod.mk.injEq] at hkf
    have hkvs : kvs = entriesOf (evOf (serEntry s f attrs)) wireName (s t) := hkf.1
    have hfound : found = ((s t).map (icOf (serEntry s f attrs))).sum := hkf.2
    obtain ⟨p0, hp0mem, hp0pres⟩ := List.any_eq_true.1 hany
    obtain ⟨hp0some, hp0inc⟩ := serEntry_present hp0pres (he p0 hp0mem)
    have hfound1 : 1 ≤ found := hfound ▸ one_le_sum_map hp0mem hp0inc
    have hfz : (found == 0) = false := by
      simp only [beq_eq_false_iff_ne]
      omega
    rw [hfz] at hser
    simp only [Bool.false_eq_true, if_false] at hser
    cases hser
    have hlook : ∀ p ∈ s t, alookup kvs (wireName p) = evOf (serEntry s f attrs) p := by
      intro p hp
      rw [hkvs]
      exact alookup_entriesOf_self (evOf (serEntry s f attrs)) wireName (s t) hnd1 p hp
    have hprop := fun p hp => propEntryRT s f hE attrs kvs p
      (propsSafeB_mem s f attrs (s t) hprops p hp)
      (evOf (serEntry s f attrs) p) (icOf (serEntry s f attrs) p)
      (he p hp) (hlook p hp)
    have hdok : ∀ p ∈ s t, ∃ o i, desEntry s f (.dict kvs) p = .ok (o, i) := by
      intro p hp
      obtain ⟨oD, iD, hd, _, _⟩ := hprop p hp
      exact ⟨oD, iD, hd⟩
    have hde : ∀ p ∈ s t, desEntry s f (.dict kvs) p =
        .ok (evOf (desEntry s f (.dict kvs)) p, icOf (desEntry s f (.dict kvs)) p) :=
      fun p hp => entry_eval (hdok p hp)
    have hfacts : ∀ p ∈ s t,
        (evOf (serEntry s f attrs) p).isSome = true →
          (evOf (desEntry s f (.dict kvs)) p).isSome = true ∧
            icOf (desEntry s f (.dict kvs)) p = 1 := by
      intro p hp hs
      obtain ⟨oD, iD, hd, himp, _⟩ := hprop p hp
      have hid := (hde p hp).symm.trans hd
      injection hid with hpair
      injection hpair with h1 h2
      rw [h1, h2]
      exact himp hs
    have hre : ∀ p ∈ s t, ∀ attrs2,
        alookup attrs2 p.actualName = evOf (desEntry s f (.dict kvs)) p →
        serEntry s f attrs2 p = .ok (evOf (serEntry s f attrs) p,
          if (evOf (desEntry s f (.dict kvs)) p).isSome then 1 else 0) := by
      intro p hp attrs2 h2
      obtain ⟨oD, iD, hd, _, hr⟩ := hprop p hp
      have hid := (hde p hp).symm.trans hd
      injection hid with hpair
      injection hpair with h1 hi2
      rw [h1] at h2
      rw [h1]
      exact hr attrs2 h2
    have hdspec := propsGoG_spec (desEntry s f (.dict kvs)) (fun p => p.actualName)
      (evOf (desEntry s f (.dict kvs))) (icOf (desEntry s f (.dict kvs))) (s t) [] 0
      hde (fun p _ => rfl) hnd2
    have hne : kvs ≠ [] := by
      intro hkn
      have := hlook p0 hp0mem
      rw [hkn] at this
      rw [alookup_nil] at this
      rw [← this] at hp0some
      cases hp0some
    refine ⟨entriesOf (evOf (desEntry s f (.dict kvs))) (fun p => p.actualName) (s t),
      ?_, ?_⟩
    · -- decode yields the reconstructed instance
      rw [deserialize]
      have htr : pyTruthy (.dict kvs) = true := by
        rw [pyTruthy]
        simpa using hne
      rw [htr]
      simp only [Bool.true_eq_false, if_false]
      rw [deserializeGo, desPropsGo_eq_G, hdspec]
      dsimp only
      have hic0 : icOf (desEntry s f (.dict kvs)) p0 = 1 := (hfacts p0 hp0mem hp0some).2
      have hf2 : 1 ≤ ((s t).map (icOf (desEntry s f (.dict kvs)))).sum :=
        one_le_sum_map hp0mem hic0
      have hfz2 : ((0 + ((s t).map (icOf (desEntry s f (.dict kvs)))).sum) == 0) = false := by
        simp only [beq_eq_false_iff_ne]
        omega
      rw [hfz2]
      simp
      intro xs hxs
      cases hxs
    · -- re-encoding the reconstructed instance reproduces the wire dict
      rw [serialize, serPropsGo_eq_G]
      have hlook2 : ∀ p ∈ s t,
          alookup (entriesOf (evOf (desEntry s f (.dict kvs)))
            (fun p => p.actualName) (s t)) p.actualName =
            evOf (desEntry s f (.dict kvs)) p := by
        intro p hp
        exact alookup_entriesOf_self (evOf (desEntry s f (.dict kvs)))
          (fun p => p.actualName) (s t) hnd2 p hp
      have he2 : ∀ p ∈ s t,
          serEntry s f (entriesOf (evOf (desEntry s f (.dict kvs)))
            (fun p => p.actualName) (s t)) p =
          .ok (evOf (serEntry s f attrs) p,
            if (evOf (desEntry s f (.dict kvs)) p).isSome then 1 else 0) :=
        fun p hp => hre p hp _ (hlook2 p hp)
      have hspec2 := propsGoG_spec
        (serEntry s f (entriesOf (evOf (desEntry s f (.dict kvs)))
          (fun p => p.actualName) (s t))) wireName
        (evOf (serEntry s f attrs))
        (fun p => if (evOf (desEntry s f (.dict kvs)) p).isSome then 1 else 0)
        (s t) [] 0 he2 (fun p _ => rfl) hnd1
      rw [hspec2]
      dsimp only
      have hic0b : (if (evOf (desEntry s f (.dict kvs)) p0).isSome then 1 else 0) = 1 := by
        rw [(hfacts p0 hp0mem hp0some).1]
        rfl
      have hf3 : 1 ≤ ((s t).map
          (fun p => if (evOf (desEntry s f (.dict kvs)) p).isSome then 1 else 0)).sum :=
        one_le_sum_map hp0mem hic0b
      have hfz3 : ((0 + ((s t).map
          (fun p => if (evOf (desEntry s f (.dict kvs)) p).isSome then 1 else 0)).sum) == 0)
          = false := by
        simp only [beq_eq_false_iff_ne]
        omega
      rw [hfz3]
      simp only [Bool.false_eq_true, if_false]
      rw [hkvs]
      simp

/-- The instance-level round trip holds at every depth. -/
theorem mainRT (s : Schema) : ∀ f, MainRTP s f := by
  intro f
  induction f with
  | zero => exact mainRT_core s 0 (fun g hg => absurd hg (by omega))
  | succ f ih =>
    refine mainRT_core s (f + 1) (fun g hg => ?_)
    cases Nat.succ.inj hg
    exact elemRT_of_main s f ih

/-- C1 (amended): for every entity instance in the round-trip-safe
fragment (`objSafe`: its class's properties carry distinct wire and
attribute names, at least one property is present, and every list or
complex value is `None`, a truthy scalar of a property-free declared
type, or a safe instance of the declared type — and absent optional
list/complex defaults are the empty list or `None`), if `serialize`
succeeds then `deserialize` reconstructs an entity whose `serialize`
output is structurally equal to the original wire tree.  The
restriction to safe values is forced by the counterexample: a falsy
scalar inside a list field decodes to `None` and re-encodes
differently. -/
theorem c1_roundTrip_amended (s : Schema) (f : Nat) (t : String)
    (attrs : List (String × Value)) (w : Value)
    (hsafe : objSafe s f t attrs = true)
    (hser : serialize s f (.obj t attrs) = .ok w) :
    ∃ attrs2, deserialize s f t w = .ok (some (.obj t attrs2)) ∧
      serialize s f (.obj t attrs2) = .ok w :=
  mainRT s f t attrs w hsafe hser

/-- Concrete schema for the C1 witness: a student with a required
scalar, a list of grade entities, and an absent optional defaulted
scalar redirected to a missing attribute. -/
def c1schema : Schema := fun t =>
  if t == "Student" then
    [{actualName := "name", required := true},
     {actualName := "grades", isList := true, typeOfEntity := "Grade"},
     {actualName := "nick", defaultFactory := some (.str ""), descriptorBacked := false}]
  else if t == "Grade" then [{actualName := "score", required := true}]
  else []

def c1attrs : List (String × Value) :=
  [("name", .str "Ann"), ("grades", .list [.obj "Grade" [("score", .int 20)]])]

def c1wire : Value :=
  .dict [("name", .str "Ann"), ("grades", .list [.dict [("score", .int 20)]]),
    ("nick", .str "")]

theorem c1_roundTrip_witness :
    objSafe c1schema 2 "Student" c1attrs = true ∧
    serialize c1schema 2 (.obj "Student" c1attrs) = .ok c1wire ∧
    ∃ attrs2,
      deserialize c1schema 2 "Student" c1wire = .ok (some (.obj "Student" attrs2)) ∧
        serialize c1schema 2 (.obj "Student" attrs2) = .ok c1wire := by
  have h1 : objSafe c1schema 2 "Student" c1attrs = true := by decide
  have h2 : serialize c1schema 2 (.obj "Student" c1attrs) = .ok c1wire := by
    simp [serialize, serPropsGo, serEntry, serializeList, c1schema, c1attrs, c1wire,
      hasattrB, getattrPy, alookup, dictInsert, pyIterE, wireName]
  exact ⟨h1, h2, c1_roundTrip_amended c1schema 2 "Student" c1attrs c1wire h1 h2⟩

/-- Schema for the C1 counterexample: one declared field, a list of
ints. -/
def c1xschema : Schema := fun t =>
  if t == "E" then [{actualName := "xs", isList := true, typeOfEntity := "int"}] else []

/-- C1 counterexample: an entity whose type declares one (list) field
and whose encode succeeds, yet `deserialize (encode e)` yields an
entity that re-encodes differently — the falsy list element `0` decodes
to `None` (the `if not data` guard) and re-encodes as `null`. -/
theorem c1_roundTrip_counterexample :
    serialize c1xschema 2 (.obj "E" [("xs", .list [.int 0])]) =
      .ok (.dict [("xs", .list [.int 0])]) ∧
    deserialize c1xschema 2 "E" (.dict [("xs", .list [.int 0])]) =
      .ok (some (.obj "E" [("xs", .list [.none])])) ∧
    serialize c1xschema 2 (.obj "E" [("xs", .list [.none])]) =
      .ok (.dict [("xs", .list [.none])]) ∧
    Value.dict [("xs", .list [.none])] ≠ Value.dict [("xs", .list [.int 0])] := by
  refine ⟨?_, ?_, ?_, by decide⟩ <;>
    simp [serialize, serPropsGo, serEntry, serializeList, deserialize, deserializeGo,
      desPropsGo, desEntry, desList, c1xschema, hasattrB, getattrPy, alookup,
      dictInsert, pyTruthy, pyContains, pyGetItem, pyIterE, wireName]

/-- Tracking states of `_EntityTracker`
(`src/sjd/database/_entity_tracker.py`, `TrackingMode`). -/
inductive TrackingMode where
  | update : TrackingMode
  | create : TrackingMode
  | delete : TrackingMode
deriving DecidableEq

/-- Failure raised while normalizing and serializing a record during a
commit (`_manage_referral_properties` / `serialize` can raise). -/
inductive CommitErr where
  | encodeFailed : CommitErr
deriving DecidableEq

/-- A change tracker (`_EntityTracker`): the tracker-table key (the
master entity's id), the tracking mode, the serialized snapshot taken
at tracking time (`_initial_schema`), and the tracked master record.
`R` is the master record type and `W` the serialized form of its slave;
both are parameters of the commit model, which is agnostic to the
record representation. -/
structure ColTracker (R W : Type) where
  key : String
  mode : TrackingMode
  initialSchema : W
  master : R
deriving DecidableEq

/-- `modified`: re-serialize the slave and compare against the initial
snapshot (structural inequality). -/
def tModified {R W : Type} [DecidableEq W] (serSlave : R → W) (t : ColTracker R W) : Bool :=
  !(decide (serSlave t.master = t.initialSchema))

/-- The `created` partition of the tracker table. -/
def partCreated {R W : Type} (ts : List (ColTracker R W)) : List (ColTracker R W) :=
  ts.filter (fun t => t.mode == .create)

/-- The `updated` partition: update mode and `modified` true. -/
def partUpdated {R W : Type} [DecidableEq W] (serSlave : R → W)
    (ts : List (ColTracker R W)) : List (ColTracker R W) :=
  ts.filter (fun t => t.mode == .update && tModified serSlave t)

/-- The `deleted` partition. -/
def partDeleted {R W : Type} (ts : List (ColTracker R W)) : List (ColTracker R W) :=
  ts.filter (fun t => t.mode == .delete)

/-- The keys whose trackers a successful commit pops and detaches, in
the order the cleanup loop visits the partition dicts. -/
def committedKeys {R W : Type} [DecidableEq W] (serSlave : R → W)
    (ts : List (ColTracker R W)) : List String :=
  (partUpdated serSlave ts ++ partCreated ts ++ partDeleted ts).map (fun t => t.key)

/-- State of one collection: its tracker table and its backing file
(`Option.none` when the file does not exist yet); `L` is the type of
file lines. -/
structure ColState (R W L : Type) where
  trackers : List (ColTracker R W)
  file : Option (List L)

/-- Outcome of `_save_changes`: the returned count or raised error, the
live file afterwards, the tracker table afterwards, the keys whose
entities had `__tracking_id__` detached, whether any file I/O was
performed, and whether the remove+rename swap replaced the live
file. -/
structure CommitResult (R W L : Type) where
  result : Except CommitErr Nat
  file : Option (List L)
  trackers : List (ColTracker R W)
  detachedKeys : List String
  ioPerformed : Bool
  tmpSwapped : Bool

/-- The create-append loop of `_save_changes` (lines 383-389): for each
created record, normalize and serialize it and append the line to the
live file; on failure the lines already appended stay durable. -/
def appendLoop {R W L : Type} (encLine : R → Except CommitErr L) :
    List (ColTracker R W) → List L → List L × Option CommitErr
  | [], acc => (acc, Option.none)
  | t :: ts, acc =>
    match encLine t.master with
    | .ok l => appendLoop encLine ts (acc ++ [l])
    | .error e => (acc, some e)

/-- The copy-rewrite loop of `_save_changes` (lines 392-411): stream the
live file into a fresh temporary file, dropping lines whose extracted
id is in the deleted set (the code writes the empty string),
re-encoding lines whose id matches an updated tracker, and copying all
other lines; counts each matched line and records whether anything
changed. -/
def rewriteLoop {R W L : Type} (encLine : R → Except CommitErr L)
    (getLineId : L → String)
    (updated deleted : List (ColTracker R W)) :
    List L → List L → Nat → Bool → Except CommitErr (List L × Nat × Bool)
  | [], tmp, cnt, modf => .ok (tmp, cnt, modf)
  | line :: rest, tmp, cnt, modf =>
    if deleted.any (fun t => t.key == getLineId line) then
      rewriteLoop encLine getLineId updated deleted rest tmp (cnt + 1) true
    else
      match updated.find? (fun t => t.key == getLineId line) with
      | some t =>
        match encLine t.master with
        | .ok l2 => rewriteLoop encLine getLineId updated deleted rest (tmp ++ [l2]) (cnt + 1) true
        | .error e => .error e
      | Option.none => rewriteLoop encLine getLineId updated deleted rest (tmp ++ [line]) cnt modf

/-- Embedding of `_save_changes`
(`src/sjd/database/_collection.py`, lines 355-427).  `encLine` models
`_manage_referral_properties` followed by `json.dumps(serialize(...))` —
the normalize-and-encode step for one record, which may raise.  The
partition loop, the `any(any(mode) ...)` emptiness guard (truthiness of
the key strings), the create-append phase, the copy-rewrite phase, the
conditional remove+rename swap, the cascade step (which touches only
other collections and is modelled separately), and the tracker cleanup
are translated in order.  Exceptions propagate: on a failed append or
rewrite the function returns the error with the file as it stands, no
swap, and no tracker cleanup. -/
def saveChanges {R W L : Type} [DecidableEq W] (serSlave : R → W)
    (encLine : R → Except CommitErr L) (getLineId : L → String)
    (st : ColState R W L) : CommitResult R W L :=
  let created := partCreated st.trackers
  let updated := partUpdated serSlave st.trackers
  let deleted := partDeleted st.trackers
  if !((created ++ updated ++ deleted).any (fun t => t.key != "")) then
    ⟨.ok 0, st.file, st.trackers, [], false, false⟩
  else
    let file0 := st.file.getD []
    match appendLoop encLine created [] with
    | (clines, some e) => ⟨.error e, some (file0 ++ clines), st.trackers, [], true, false⟩
    | (clines, Option.none) =>
      let file1 := file0 ++ clines
      if updated.isEmpty && deleted.isEmpty then
        ⟨.ok created.length, some file1,
          st.trackers.filter (fun t => !(committedKeys serSlave st.trackers).contains t.key),
          committedKeys serSlave st.trackers, true, false⟩
      else
        match rewriteLoop encLine getLineId updated deleted file1 [] 0 false with
        | .error e => ⟨.error e, some file1, st.trackers, [], true, false⟩
        | .ok (tmp, rwCount, modf) =>
          ⟨.ok (created.length + rwCount), some (if modf then tmp else file1),
            st.trackers.filter (fun t => !(committedKeys serSlave st.trackers).contains t.key),
            committedKeys serSlave st.trackers, true, modf⟩

/-- Number of live-file lines the rewrite phase counts: lines whose
extracted id is in the deleted key set or matches an updated
tracker. -/
def rwMatched {R W L : Type} (getLineId : L → String)
    (updated deleted : List (ColTracker R W)) (lines : List L) : Nat :=
  lines.countP (fun l => deleted.any (fun t => t.key == getLineId l) ||
    (updated.find? (fun t => t.key == getLineId l)).isSome)

theorem rewriteLoop_count {R W L : Type} (encLine : R → Except CommitErr L)
    (getLineId : L → String) (updated deleted : List (ColTracker R W)) :
    ∀ (lines tmp : List L) (cnt : Nat) (modf : Bool) (tmp2 : List L) (cnt2 : Nat)
    (modf2 : Bool),
    rewriteLoop encLine getLineId updated deleted lines tmp cnt modf =
      .ok (tmp2, cnt2, modf2) →
    cnt2 = cnt + rwMatched getLineId updated deleted lines := by
  intro lines
  induction lines with
  | nil =>
    intro tmp cnt modf tmp2 cnt2 modf2 h
    rw [rewriteLoop] at h
    injection h with h1
    injection h1 with ha hb
    injection hb with hb1
    rw [rwMatched]
    simp [hb1]
  | cons line rest ih =>
    intro tmp cnt modf tmp2 cnt2 modf2 h
    rw [rewriteLoop] at h
    have hm : rwMatched getLineId updated deleted (line :: rest) =
        (if (deleted.any (fun t => t.key == getLineId line) ||
          (updated.find? (fun t => t.key == getLineId line)).isSome) then 1 else 0) +
          rwMatched getLineId updated deleted rest := by
      rw [rwMatched, rwMatched, List.countP_cons]
      by_cases hp : (deleted.any (fun t => t.key == getLineId line) ||
          (updated.find? (fun t => t.key == getLineId line)).isSome) = true
      · rw [hp]
        simp only [if_true]
        omega
      · rw [Bool.not_eq_true] at hp
        rw [hp]
        simp only [Bool.false_eq_true, if_false]
        omega
    by_cases hdel : deleted.any (fun t => t.key == getLineId line) = true
    · rw [hdel] at h
      simp only [reduceIte] at h
      have := ih tmp (cnt + 1) true tmp2 cnt2 modf2 h
      rw [hm, hdel]
      simp only [Bool.true_or, if_true]
      omega
    · rw [Bool.not_eq_true] at hdel
      rw [hdel] at h
      simp only [Bool.false_eq_true, if_false] at h
      cases hf : updated.find? (fun t => t.key == getLineId line) with
      | some t =>
        rw [hf] at h
        dsimp only at h
        cases henc : encLine t.master with
        | ok l2 =>
          rw [henc] at h
          dsimp only at h
          have := ih (tmp ++ [l2]) (cnt + 1) true tmp2 cnt2 modf2 h
          rw [hm, hdel, hf]
          simp only [Bool.false_or, Option.isSome_some, if_true]
          omega
        | error e =>
          rw [henc] at h
          exact absurd h (by simp)
      | none =>
        rw [hf] at h
        dsimp only at h
        have := ih (tmp ++ [line]) cnt modf tmp2 cnt2 modf2 h
        rw [hm, hdel, hf]
        simp only [Bool.false_or, Option.isSome_none, Bool.false_eq_true, if_false]
        omega

/-- C2 (amended): when all three partitions are empty, commit returns 0
and performs no file I/O (and leaves everything untouched); and on any
successful commit the returned count is the number of created trackers
plus the number of live-file lines (after the create-append) whose
extracted id falls in the deleted or updated key sets — not the number
of deleted/updated trackers.  Tracker keys are assumed non-empty (the
default UUID keys always are); the emptiness guard tests key
truthiness. -/
theorem c2_commitCount_amended {R W L : Type} [DecidableEq W] (serSlave : R → W)
    (encLine : R → Except CommitErr L) (getLineId : L → String)
    (st : ColState R W L) (hkeys : ∀ t ∈ st.trackers, t.key ≠ "") :
    (partCreated st.trackers = [] ∧ partUpdated serSlave st.trackers = [] ∧
        partDeleted st.trackers = [] →
      saveChanges serSlave encLine getLineId st =
        ⟨.ok 0, st.file, st.trackers, [], false, false⟩) ∧
    (∀ n, (saveChanges serSlave encLine getLineId st).result = .ok n →
      n = (partCreated st.trackers).length +
        rwMatched getLineId (partUpdated serSlave st.trackers)
          (partDeleted st.trackers)
          (st.file.getD [] ++ (appendLoop encLine (partCreated st.trackers) []).1)) := by
  constructor
  · rintro ⟨h1, h2, h3⟩
    rw [saveChanges, h1, h2, h3]
    rfl
  · intro n hok
    rw [saveChanges] at hok
    by_cases hguard : ((partCreated st.trackers ++ partUpdated serSlave st.trackers ++
        partDeleted st.trackers).any (fun t => t.key != "")) = true
    · rw [hguard] at hok
      simp only [Bool.not_true, Bool.false_eq_true, if_false] at hok
      cases happ : appendLoop encLine (partCreated st.trackers) [] with
      | mk clines oerr =>
        rw [happ] at hok
        cases oerr with
        | some e => exact absurd hok (by simp)
        | none =>
          dsimp only at hok
          by_cases hemp : ((partUpdated serSlave st.trackers).isEmpty &&
              (partDeleted st.trackers).isEmpty) = true
          · rw [hemp] at hok
            simp only [if_true] at hok
            injection hok with hn
            rw [Bool.and_eq_true, List.isEmpty_iff, List.isEmpty_iff] at hemp
            rw [← hn, rwMatched, hemp.1, hemp.2]
            simp
          · rw [Bool.not_eq_true] at hemp
            rw [hemp] at hok
            simp only [Bool.false_eq_true, if_false] at hok
            cases hrw : rewriteLoop encLine getLineId (partUpdated serSlave st.trackers)
                (partDeleted st.trackers) (st.file.getD [] ++ clines) [] 0 false with
            | error e => rw [hrw] at hok; exact absurd hok (by simp)
            | ok r =>
              obtain ⟨tmp, rwCount, modf⟩ := r
              rw [hrw] at hok
              dsimp only at hok
              injection hok with hn
              have hcnt := rewriteLoop_count encLine getLineId
                (partUpdated serSlave st.trackers) (partDeleted st.trackers)
                (st.file.getD [] ++ clines) [] 0 false tmp rwCount modf hrw
              dsimp only
              omega
    · rw [Bool.not_eq_true] at hguard
      rw [hguard] at hok
      simp only [Bool.not_false, if_true] at hok
      injection hok with hn
      have hempty : ∀ t2 ∈ partCreated st.trackers ++ partUpdated serSlave st.trackers ++
          partDeleted st.trackers, False := by
        intro t2 ht2
        have hk2 : t2.key ≠ "" := by
          rcases List.mem_append.1 ht2 with h | h
          · rcases List.mem_append.1 h with h | h
            · exact hkeys t2 (List.mem_filter.1 h).1
            · exact hkeys t2 (List.mem_filter.1 h).1
          · exact hkeys t2 (List.mem_filter.1 h).1
        have hfalse : (t2.key != "") = false := by
          cases hx : (t2.key != "") with
          | false => rfl
          | true =>
            exfalso
            have hx2 : ((partCreated st.trackers ++ partUpdated serSlave st.trackers ++
                partDeleted st.trackers).any (fun t => t.key != "")) = true :=
              List.any_eq_true.2 ⟨t2, ht2, hx⟩
            rw [hguard] at hx2
            cases hx2
        have hk3 : t2.key = "" := by simpa using hfalse
        exact hk2 hk3
      have hc : partCreated st.trackers = [] := by
        cases hc2 : partCreated st.trackers with
        | nil => rfl
        | cons a rest =>
          exact (hempty a (by rw [hc2]; simp)).elim
      have hu : partUpdated serSlave st.trackers = [] := by
        cases hc2 : partUpdated serSlave st.trackers with
        | nil => rfl
        | cons a rest =>
          exact (hempty a (by rw [hc2]; simp)).elim
      have hd : partDeleted st.trackers = [] := by
        cases hc2 : partDeleted st.trackers with
        | nil => rfl
        | cons a rest =>
          exact (hempty a (by rw [hc2]; simp)).elim
      rw [← hn, hc, hu, hd, rwMatched]
      simp

/-- Tracker table for the C2 counterexample: one tracker in Delete mode
whose key never occurs in the (empty) collection file — the state
produced by `add` followed by `delete` before any commit. -/
def c2xstate : ColState Unit Unit Unit :=
  ⟨[⟨"k", .delete, (), ()⟩], some []⟩

/-- C2 counterexample: a commit over a tracker table holding one
Delete-mode tracker returns 0, not the deleted-partition count 1 — the
code counts matching file lines during the rewrite, and no line
matches. -/
theorem c2_commitCount_counterexample :
    (saveChanges (fun _ => ()) (fun _ => .ok ()) (fun _ => "x") c2xstate).result =
      .ok 0 ∧
    (partDeleted c2xstate.trackers).length = 1 := ⟨rfl, rfl⟩

def c2wstate : ColState Unit Unit Unit :=
  ⟨[⟨"a", .create, (), ()⟩], some []⟩

theorem c2_commitCount_witness :
    (1 = (partCreated c2wstate.trackers).length +
      rwMatched (fun _ => "x") (partUpdated (fun _ => ()) c2wstate.trackers)
        (partDeleted c2wstate.trackers)
        (c2wstate.file.getD [] ++
          (appendLoop (fun _ => .ok ()) (partCreated c2wstate.trackers) []).1)) ∧
    (saveChanges (fun (_ : Unit) => ()) (fun _ => .ok ()) (fun (_ : Unit) => "x")
      ⟨[], some []⟩ = ⟨.ok 0, some [], [], [], false, false⟩) :=
  ⟨(c2_commitCount_amended (fun _ => ()) (fun _ => .ok ()) (fun _ => "x") c2wstate
      (by decide)).2 1 rfl,
   (c2_commitCount_amended (fun _ => ()) (fun _ => .ok ()) (fun _ => "x")
      ⟨[], some []⟩ (by decide)).1 ⟨rfl, rfl, rfl⟩⟩

/-- C5: if the update/delete rewrite fails at any point before the
remove+rename swap, the live file keeps exactly its pre-rewrite
content (the original lines plus the lines already appended for
created records), the temporary rewrite file is never swapped in, no
tracker is cleaned up or detached, and the commit surfaces the
error. -/
theorem c5_failedRewrite_preservesFile {R W L : Type} [DecidableEq W]
    (serSlave : R → W) (encLine : R → Except CommitErr L) (getLineId : L → String)
    (st : ColState R W L) (e : CommitErr) (clines : List L)
    (hguard : ((partCreated st.trackers ++ partUpdated serSlave st.trackers ++
      partDeleted st.trackers).any (fun t => t.key != "")) = true)
    (happ : appendLoop encLine (partCreated st.trackers) [] = (clines, Option.none))
    (hne : ((partUpdated serSlave st.trackers).isEmpty &&
      (partDeleted st.trackers).isEmpty) = false)
    (hrw : rewriteLoop encLine getLineId (partUpdated serSlave st.trackers)
      (partDeleted st.trackers) (st.file.getD [] ++ clines) [] 0 false = .error e) :
    saveChanges serSlave encLine getLineId st =
      ⟨.error e, some (st.file.getD [] ++ clines), st.trackers, [], true, false⟩ := by
  rw [saveChanges, hguard]
  simp only [Bool.not_true, Bool.false_eq_true, if_false]
  rw [happ]
  dsimp only
  rw [hne]
  simp only [Bool.false_eq_true, if_false]
  rw [hrw]

/-- Tracker table and hooks for the C5 witness: an Update-mode tracker
whose snapshot differs from its current serialization (so it is
partitioned as updated), whose record fails to encode during the
rewrite; the file holds its one line. -/
def c5state : ColState Bool Bool String :=
  ⟨[⟨"u", .update, false, true⟩], some ["u"]⟩

def c5enc (b : Bool) : Except CommitErr String :=
  if b then .error .encodeFailed else .ok "line"

theorem c5_failedRewrite_witness :
    saveChanges (fun b => b) c5enc (fun l => l) c5state =
      ⟨.error .encodeFailed, some ["u"], c5state.trackers, [], true, false⟩ :=
  c5_failedRewrite_preservesFile (fun b => b) c5enc (fun l => l) c5state
    .encodeFailed [] rfl rfl rfl rfl

theorem key_mem_committed {R W : Type} [DecidableEq W] (serSlave : R → W)
    (ts : List (ColTracker R W)) (t : ColTracker R W) (ht : t ∈ ts)
    (hmode : t.mode = .create ∨ t.mode = .delete ∨
      (t.mode = .update ∧ tModified serSlave t = true)) :
    t.key ∈ committedKeys serSlave ts := by
  rw [committedKeys]
  rcases hmode with h | h | h
  · refine List.mem_map_of_mem _ (List.mem_append.2 (Or.inl (List.mem_append.2 (Or.inr ?_))))
    exact List.mem_filter.2 ⟨ht, by rw [h]; rfl⟩
  · refine List.mem_map_of_mem _ (List.mem_append.2 (Or.inr ?_))
    exact List.mem_filter.2 ⟨ht, by rw [h]; rfl⟩
  · refine List.mem_map_of_mem _ (List.mem_append.2 (Or.inl (List.mem_append.2 (Or.inl ?_))))
    exact List.mem_filter.2 ⟨ht, by rw [Bool.and_eq_true, h.1]; exact ⟨rfl, h.2⟩⟩

/-- C8: after every successful commit, each tracker whose change was
committed — every Create-mode tracker, every Delete-mode tracker, and
every Update-mode tracker whose `modified()` was true at partition
time — is removed from the tracker table and its key is among the
detached tracking ids, regardless of whether that change produced a
file write.  Tracker keys are assumed non-empty (UUID keys always
are). -/
theorem c8_trackerCleanup {R W L : Type} [DecidableEq W] (serSlave : R → W)
    (encLine : R → Except CommitErr L) (getLineId : L → String)
    (st : ColState R W L) (n : Nat)
    (hok : (saveChanges serSlave encLine getLineId st).result = .ok n)
    (hkeys : ∀ t ∈ st.trackers, t.key ≠ "") :
    ∀ t ∈ st.trackers,
      (t.mode = .create ∨ t.mode = .delete ∨
        (t.mode = .update ∧ tModified serSlave t = true)) →
      ¬ t ∈ (saveChanges serSlave encLine getLineId st).trackers ∧
        (saveChanges serSlave encLine getLineId st).detachedKeys.contains t.key = true := by
  intro t ht hmode
  have hkeymem : t.key ∈ committedKeys serSlave st.trackers :=
    key_mem_committed serSlave st.trackers t ht hmode
  rw [saveChanges] at hok ⊢
  by_cases hguard : ((partCreated st.trackers ++ partUpdated serSlave st.trackers ++
      partDeleted st.trackers).any (fun t => t.key != "")) = true
  · rw [hguard] at hok ⊢
    simp only [Bool.not_true, Bool.false_eq_true, if_false] at hok ⊢
    cases happ : appendLoop encLine (partCreated st.trackers) [] with
    | mk clines oerr =>
      cases oerr with
      | some e =>
        rw [happ] at hok
        dsimp only at hok
        exact absurd hok (by simp)
      | none =>
        rw [happ] at hok
        dsimp only at hok ⊢
        have hconc : ¬ t ∈ st.trackers.filter
            (fun t2 => !(committedKeys serSlave st.trackers).contains t2.key) ∧
            (committedKeys serSlave st.trackers).contains t.key = true := by
          constructor
          · intro hmem
            have hcf := (List.mem_filter.1 hmem).2
            rw [Bool.not_eq_true'] at hcf
            have hnm : ¬ t.key ∈ committedKeys serSlave st.trackers := by
              simpa using hcf
            exact hnm hkeymem
          · simpa using hkeymem
        by_cases hemp : ((partUpdated serSlave st.trackers).isEmpty &&
            (partDeleted st.trackers).isEmpty) = true
        · rw [hemp]
          simp only [if_true]
          exact hconc
        · rw [Bool.not_eq_true] at hemp
          rw [hemp] at hok ⊢
          simp only [Bool.false_eq_true, if_false] at hok ⊢
          cases hrw : rewriteLoop encLine getLineId (partUpdated serSlave st.trackers)
              (partDeleted st.trackers) (st.file.getD [] ++ clines) [] 0 false with
          | error e =>
            rw [hrw] at hok
            dsimp only at hok
            exact absurd hok (by simp)
          | ok r =>
            obtain ⟨tmp, rwCount, modf⟩ := r
            dsimp only
            exact hconc
  · rw [Bool.not_eq_true] at hguard
    exfalso
    have hkx : (t.key != "") = true := by
      simpa using hkeys t ht
    have hmem2 : t ∈ partCreated st.trackers ++ partUpdated serSlave st.trackers ++
        partDeleted st.trackers := by
      rcases hmode with h | h | h
      · exact List.mem_append.2 (Or.inl (List.mem_append.2 (Or.inl
          (List.mem_filter.2 ⟨ht, by rw [h]; rfl⟩))))
      · exact List.mem_append.2 (Or.inr (List.mem_filter.2 ⟨ht, by rw [h]; rfl⟩))
      · exact List.mem_append.2 (Or.inl (List.mem_append.2 (Or.inr
          (List.mem_filter.2 ⟨ht, by rw [Bool.and_eq_true, h.1]; exact ⟨rfl, h.2⟩⟩))))
    have hany : ((partCreated st.trackers ++ partUpdated serSlave st.trackers ++
        partDeleted st.trackers).any (fun t => t.key != "")) = true := by
      refine List.any_eq_true.2 ⟨t, hmem2, ?_⟩
      exact hkx
    rw [hguard] at hany
    cases hany

/-- Concrete commit state for the cleanup invariant: one created record
and one modified updated record over an existing empty file. -/
def c8state : ColState Bool Bool String :=
  ⟨[⟨"a", .create, false, false⟩, ⟨"c", .update, false, true⟩], some []⟩

theorem c8_trackerCleanup_witness :
    ¬ (⟨"a", .create, false, false⟩ : ColTracker Bool Bool) ∈
        (saveChanges (fun b => b) (fun _ => Except.ok "x") (fun _ => "") c8state).trackers ∧
      (saveChanges (fun b => b) (fun _ => Except.ok "x") (fun _ => "")
        c8state).detachedKeys.contains "a" = true :=
  c8_trackerCleanup (fun b => b) (fun _ => Except.ok "x") (fun _ => "") c8state 1
    (by rfl) (by decide) ⟨"a", .create, false, false⟩ (by decide) (Or.inl rfl)

/-! ### Filesystem model: snapshot scans (`_CollectionQueryableContext`)

A directory is a list of file names bound to their line lists.  The
events are exactly the file operations the collection performs:
whole-file writes (`aiofiles.open(_, "w")`), appends
(`aiofiles.open(_, "a")`), `shutil.copyfile`, `os.remove` and
`os.rename`. -/

def fsRead : List (String × List String) → String → Option (List String)
  | [], _ => Option.none
  | (k, v) :: rest, key => if k == key then some v else fsRead rest key

def fsWrite : List (String × List String) → String → List String →
    List (String × List String)
  | [], k, v => [(k, v)]
  | (k', v') :: rest, k, v =>
    if k' == k then (k, v) :: rest else (k', v') :: fsWrite rest k v

def fsRemove : List (String × List String) → String → List (String × List String)
  | [], _ => []
  | (k', v') :: rest, k => if k' == k then rest else (k', v') :: fsRemove rest k

/-- One file-system operation issued by the collection code. -/
inductive FsEvent where
  | write : String → List String → FsEvent
  | append : String → List String → FsEvent
  | copyFile : String → String → FsEvent
  | remove : String → FsEvent
  | rename : String → String → FsEvent
deriving DecidableEq

def applyEvent (fs : List (String × List String)) :
    FsEvent → List (String × List String)
  | .write n ls => fsWrite fs n ls
  | .append n ls => fsWrite fs n ((fsRead fs n).getD [] ++ ls)
  | .copyFile s d => fsWrite fs d ((fsRead fs s).getD [])
  | .remove n => fsRemove fs n
  | .rename s d => fsWrite (fsRemove fs s) d ((fsRead fs s).getD [])

def applyTrace (fs : List (String × List String)) :
    List FsEvent → List (String × List String)
  | [] => fs
  | e :: es => applyTrace (applyEvent fs e) es

/-- Whether an event reads from, writes to, or unlinks the named file. -/
def eventTouches : FsEvent → String → Bool
  | .write n _, x => n == x
  | .append n _, x => n == x
  | .copyFile s d, x => s == x || d == x
  | .remove n, x => n == x
  | .rename s d, x => s == x || d == x

/-- The file operations of one `_save_changes` commit (lines 385-421):
append the created lines to the live file; if the update/delete rewrite
runs, write the rewrite output to the commit's own temporary file, then
either swap it in (`os.remove` + `os.rename`) when something matched or
unlink it when nothing did. -/
def commitTrace (main tmp : String) (clines : List String)
    (rw : Option (List String × Bool)) : List FsEvent :=
  (if clines.isEmpty then [] else [.append main clines]) ++
  (match rw with
   | Option.none => []
   | some (tlines, modf) =>
     .write tmp tlines ::
       (if modf then [.remove main, .rename tmp main] else [.remove tmp]))

theorem fsRead_fsWrite_ne (fs : List (String × List String)) (n x : String)
    (ls : List String) (h : (n == x) = false) :
    fsRead (fsWrite fs n ls) x = fsRead fs x := by
  induction fs with
  | nil => simp [fsWrite, fsRead, h]
  | cons p rest ih =>
    obtain ⟨k, v⟩ := p
    rw [fsWrite]
    by_cases hk : (k == n) = true
    · have hkn : k = n := by simpa using hk
      simp [hk, fsRead, hkn, h]
    · by_cases hx : (k == x) = true
      · simp [hk, fsRead, hx]
      · simp only [hk, Bool.false_eq_true, if_false, fsRead, hx]
        exact ih

theorem fsRead_fsWrite_self (fs : List (String × List String)) (n : String)
    (ls : List String) : fsRead (fsWrite fs n ls) n = some ls := by
  induction fs with
  | nil => simp [fsWrite, fsRead]
  | cons p rest ih =>
    obtain ⟨k, v⟩ := p
    rw [fsWrite]
    by_cases hk : (k == n) = true
    · simp [hk, fsRead]
    · simp only [hk, Bool.false_eq_true, if_false, fsRead]
      exact ih

theorem fsRead_fsRemove_ne (fs : List (String × List String)) (n x : String)
    (h : (n == x) = false) : fsRead (fsRemove fs n) x = fsRead fs x := by
  induction fs with
  | nil => simp [fsRemove]
  | cons p rest ih =>
    obtain ⟨k, v⟩ := p
    rw [fsRemove]
    by_cases hk : (k == n) = true
    · have hkn : k = n := by simpa using hk
      simp [hk, fsRead, hkn, h]
    · by_cases hx : (k == x) = true
      · simp [hk, fsRead, hx]
      · simp only [hk, Bool.false_eq_true, if_false, fsRead, hx]
        exact ih

theorem fsRead_applyEvent_untouched (fs : List (String × List String))
    (e : FsEvent) (x : String) (h : eventTouches e x = false) :
    fsRead (applyEvent fs e) x = fsRead fs x := by
  cases e with
  | write n ls =>
    rw [eventTouches] at h
    exact fsRead_fsWrite_ne fs n x ls h
  | append n ls =>
    rw [eventTouches] at h
    exact fsRead_fsWrite_ne fs n x _ h
  | copyFile s d =>
    rw [eventTouches] at h
    have hd : (d == x) = false := by
      cases hdx : (d == x) with
      | false => rfl
      | true => rw [hdx, Bool.or_true] at h; cases h
    exact fsRead_fsWrite_ne fs d x _ hd
  | remove n =>
    rw [eventTouches] at h
    exact fsRead_fsRemove_ne fs n x h
  | rename s d =>
    rw [eventTouches] at h
    have hd : (d == x) = false := by
      cases hdx : (d == x) with
      | false => rfl
      | true => rw [hdx, Bool.or_true] at h; cases h
    have hs : (s == x) = false := by
      cases hsx : (s == x) with
      | false => rfl
      | true => rw [hsx, Bool.true_or] at h; cases h
    have h3 : fsRead (applyEvent fs (FsEvent.rename s d)) x =
        fsRead (fsRemove fs s) x :=
      fsRead_fsWrite_ne (fsRemove fs s) d x ((fsRead fs s).getD []) hd
    rw [h3]
    exact fsRead_fsRemove_ne fs s x hs

theorem fsRead_applyTrace_untouched (tr : List FsEvent)
    (fs : List (String × List String)) (x : String)
    (h : tr.all (fun e => !(eventTouches e x)) = true) :
    fsRead (applyTrace fs tr) x = fsRead fs x := by
  induction tr generalizing fs with
  | nil => rfl
  | cons e es ih =>
    rw [List.all_cons, Bool.and_eq_true] at h
    rw [applyTrace, ih _ h.2]
    exact fsRead_applyEvent_untouched fs e x (by simpa using h.1)

theorem commitTrace_untouched (main tmp x : String) (clines : List String)
    (rw : Option (List String × Bool)) (h1 : (main == x) = false)
    (h2 : (tmp == x) = false) :
    (commitTrace main tmp clines rw).all (fun e => !(eventTouches e x)) = true := by
  rw [commitTrace.eq_def, List.all_append, Bool.and_eq_true]
  constructor
  · by_cases hc : clines.isEmpty = true
    · rw [hc]; rfl
    · rw [Bool.not_eq_true] at hc
      rw [hc]
      simp only [Bool.false_eq_true, if_false, List.all_cons, List.all_nil,
        eventTouches, h1]
      rfl
  · cases rw with
    | none => rfl
    | some r =>
      obtain ⟨tlines, modf⟩ := r
      cases modf with
      | true =>
        simp only [if_true, List.all_cons, List.all_nil, eventTouches, h1, h2]
        rfl
      | false =>
        simp only [Bool.false_eq_true, if_false, List.all_cons, List.all_nil,
          eventTouches, h1, h2]
        rfl

/-- C3: a scan's snapshot copy isolates it from commits.  Opening a
queryable context copies the live file `main` to the context's private
uuid-named temporary `tname`; afterwards any sequence of commits on the
same collection (each appending created lines to `main` and rewriting
through its own temporary `tmp`) leaves the snapshot holding exactly
the lines `main` had at copy time, so the records the scan yields are
determined solely by that copy-time content and a record committed
mid-scan is never yielded. -/
theorem c3_snapshotIsolation (fs : List (String × List String))
    (main tmp tname : String)
    (commits : List (List String × Option (List String × Bool)))
    (h1 : (main == tname) = false) (h2 : (tmp == tname) = false) :
    fsRead (applyTrace (applyEvent fs (.copyFile main tname))
        (commits.foldr (fun c acc => commitTrace main tmp c.1 c.2 ++ acc) []))
      tname = some ((fsRead fs main).getD []) := by
  rw [fsRead_applyTrace_untouched]
  · exact fsRead_fsWrite_self fs tname _
  · induction commits with
    | nil => rfl
    | cons c cs ih =>
      rw [List.foldr_cons, List.all_append, Bool.and_eq_true]
      exact ⟨commitTrace_untouched main tmp tname c.1 c.2 h1 h2, ih⟩

theorem c3_snapshotIsolation_witness :
    fsRead (applyTrace (applyEvent [("col", ["r1", "r2", "r3"])]
          (.copyFile "col" "__col_u1__"))
        ([(["r4"], (Option.none : Option (List String × Bool)))].foldr
          (fun c acc => commitTrace "col" "__col_None__" c.1 c.2 ++ acc) []))
        "__col_u1__" = some ["r1", "r2", "r3"] ∧
    fsRead (applyTrace (applyEvent [("col", ["r1", "r2", "r3"])]
          (.copyFile "col" "__col_u1__"))
        ([(["r4"], (Option.none : Option (List String × Bool)))].foldr
          (fun c acc => commitTrace "col" "__col_None__" c.1 c.2 ++ acc) []))
        "col" = some ["r1", "r2", "r3", "r4"] :=
  ⟨(c3_snapshotIsolation [("col", ["r1", "r2", "r3"])] "col" "__col_None__"
      "__col_u1__" [(["r4"], Option.none)] (by decide) (by decide)).trans (by decide),
   by decide⟩

/-! ### Referral-property normalization (`_manage_referral_properties`)

The related-collection interactions are abstracted by predicates: values
are indices, `refFound v` holds when the value's type declares a
`ReferenceProperty` whose actual name equals the virtual property's
`refers_to`, `tracked v` when `resolve_tracked_entity_id` returns an id,
and `savedExists v` when `get_first_async(refers_to, parent_id)` finds a
record.  The effects on the related collection are recorded as an op
list. -/

/-- One side effect on the related collection: set a value's reference
field to the parent's id (`setattr`), insert (`col.add`), replace
(`col.replace_entity`), or commit (`col.save_changes_async`). -/
inductive RelOp where
  | setRef : Nat → RelOp
  | addVal : Nat → RelOp
  | replaceVal : Nat → RelOp
  | commitRelated : RelOp
deriving DecidableEq

/-- The per-value body of the `for value in values` loop (lines
297-315): values with no matching reference property raise `TypeError`;
untracked values get their reference field set and are inserted;
tracked values are inserted when no saved record matches the parent id
and replaced otherwise. -/
def processValues (refFound tracked savedExists : Nat → Bool) :
    List Nat → Except String (List RelOp)
  | [] => .ok []
  | v :: vs =>
    if refFound v then
      let ops :=
        if !(tracked v) then [RelOp.setRef v, RelOp.addVal v]
        else if !(savedExists v) then [RelOp.addVal v]
        else [RelOp.replaceVal v]
      match processValues refFound tracked savedExists vs with
      | .error e => .error e
      | .ok rest => .ok (ops ++ rest)
    else .error "No ReferenceProperty found."

/-- `_manage_referral_properties` for one virtual property (lines
286-317).  `values0` is `getattr(entity.slave, prop.actual_name)`:
`Sum.inl v` a single non-list value, `Sum.inr vs` a list.  A non-list
value is wrapped into `[values]`, but the normalize/persist/strip block
sits in the `else` arm of `if not isinstance(values, list)`, so nothing
further happens to it.  The result pairs the effects on the related
collection with whether the virtual attribute was removed from the
slave (`delattr`). -/
def manageReferralProperties (refFound tracked savedExists : Nat → Bool)
    (values0 : Sum Nat (List Nat)) : Except String (List RelOp × Bool) :=
  match values0 with
  | .inl _ => .ok ([], false)
  | .inr vs =>
    match processValues refFound tracked savedExists vs with
    | .error e => .error e
    | .ok ops => .ok (ops ++ [RelOp.commitRelated], true)

/-- C4 fails (code bug): a virtual field holding a single complex value
is wrapped into a one-element list and then skipped entirely — no
reference field is set, nothing is inserted or replaced in the related
collection, no commit runs there, and the virtual attribute is not
removed — while the very same untracked value passed as a one-element
list is normalized, inserted and committed with the attribute stripped.
The `else:` on the `isinstance(values, list)` test keeps the whole
persist block away from the wrapped single value. -/
theorem c4_singleVirtualValue_skipped :
    manageReferralProperties (fun _ => true) (fun _ => false) (fun _ => false)
      (Sum.inl 0) = .ok ([], false) ∧
    manageReferralProperties (fun _ => true) (fun _ => false) (fun _ => false)
      (Sum.inr [0]) =
      .ok ([RelOp.setRef 0, RelOp.addVal 0, RelOp.commitRelated], true) :=
  ⟨rfl, rfl⟩

/-! ### DeleteReference cascade (`_care_about_virtual_props`)

A related-collection record is modelled as its key, its reference field
(the `ReferenceProperty` named by the virtual property's `refers_to`)
and an opaque payload; a record serves as its own wire form and file
line, with the key at the line's fixed id position (`_get_line_id`).
The cascade decodes every line whose reference equals the deleted
parent's key, tracks it in Update mode with the pre-mutation
serialization as initial schema (`_tracked` / `_EntityTracker`), sets
the reference to `None` (`setattr(item, prop.refers_to, None)`), and
commits the related collection with `_save_changes`. -/

structure RRec where
  key : String
  ref : Option String
  payload : Nat
deriving DecidableEq

/-- `setattr(item, prop.refers_to, None)`. -/
def setRefNone (r : RRec) : RRec := ⟨r.key, Option.none, r.payload⟩

/-- The tracker `_get_as_tracked` creates for a matched record before
the mutation: key is the record's own id, Update mode, initial schema
the record as decoded, tracked master the record after the reference is
nulled. -/
def refTracker (r : RRec) : ColTracker RRec RRec :=
  ⟨r.key, .update, r, setRefNone r⟩

/-- The `delete_reference` arm of `_care_about_virtual_props` (lines
341-350) followed by the related collection's `_save_changes`. -/
def careDeleteReference (parentKey : String) (file : List RRec) :
    CommitResult RRec RRec RRec :=
  let matched := file.filter (fun r => r.ref == some parentKey)
  saveChanges (fun r => r) (fun r => Except.ok r) (fun r => r.key)
    ⟨matched.map refTracker, some file⟩

theorem rewriteLoop_replaceAll (updated : List (ColTracker RRec RRec))
    (lines tmp : List RRec) (cnt : Nat) (modf : Bool) :
    rewriteLoop (fun r => Except.ok r) (fun r => r.key) updated [] lines tmp cnt modf =
      .ok (tmp ++ lines.map (fun l =>
            match updated.find? (fun t => t.key == l.key) with
            | some t => t.master
            | Option.none => l),
        cnt + lines.countP (fun l => (updated.find? (fun t => t.key == l.key)).isSome),
        modf || lines.any (fun l => (updated.find? (fun t => t.key == l.key)).isSome)) := by
  induction lines generalizing tmp cnt modf with
  | nil => simp [rewriteLoop]
  | cons l rest ih =>
    rw [rewriteLoop]
    simp only [List.any_nil, Bool.false_eq_true, if_false]
    cases hf : updated.find? (fun t => t.key == l.key) with
    | some t =>
      dsimp only
      rw [ih]
      simp only [List.map_cons, hf, List.countP_cons, List.any_cons,
        Option.isSome_some, if_true, Bool.true_or, Bool.or_true,
        List.append_assoc, List.cons_append, List.nil_append,
        Except.ok.injEq, Prod.mk.injEq]
      exact ⟨trivial, by omega, trivial⟩
    | none =>
      dsimp only
      rw [ih]
      simp only [List.map_cons, hf, List.countP_cons, List.any_cons,
        Option.isSome_none, Bool.false_eq_true, if_false, Bool.false_or,
        List.append_assoc, List.cons_append, List.nil_append, Nat.add_zero]

theorem find?_refTracker_pos (p : RRec → Bool) (ms : List RRec) (l : RRec)
    (hl : l ∈ ms) (hp : p l = true)
    (hinj : ∀ r1 ∈ ms, ∀ r2 ∈ ms, r1.key = r2.key → r1 = r2) :
    ((ms.filter p).map refTracker).find? (fun t => t.key == l.key) =
      some (refTracker l) := by
  induction ms with
  | nil => cases hl
  | cons a ms ih =>
    have hinj2 : ∀ r1 ∈ ms, ∀ r2 ∈ ms, r1.key = r2.key → r1 = r2 := by
      intro r1 h1 r2 h2
      exact hinj r1 (List.mem_cons_of_mem a h1) r2 (List.mem_cons_of_mem a h2)
    rw [List.filter_cons]
    by_cases hpa : p a = true
    · rw [hpa]
      simp only [if_true, List.map_cons, List.find?_cons]
      by_cases hk : ((refTracker a).key == l.key) = true
      · have hka : a.key = l.key := by simpa [refTracker] using hk
        have ha : a = l := hinj a (List.mem_cons_self a ms) l hl hka
        rw [hk]
        subst ha
        rfl
      · rw [Bool.not_eq_true] at hk
        rw [hk]
        have hlm : l ∈ ms := by
          rcases List.mem_cons.1 hl with h | h
          · exfalso
            rw [h] at hk
            simp [refTracker] at hk
          · exact h
        exact ih hlm hinj2
    · rw [Bool.not_eq_true] at hpa
      rw [hpa]
      simp only [Bool.false_eq_true, if_false]
      have hlm : l ∈ ms := by
        rcases List.mem_cons.1 hl with h | h
        · exfalso
          rw [h] at hp
          rw [hp] at hpa
          cases hpa
        · exact h
      exact ih hlm hinj2

theorem find?_refTracker_neg (p : RRec → Bool) (ms : List RRec) (l : RRec)
    (hl : l ∈ ms) (hp : p l = false)
    (hinj : ∀ r1 ∈ ms, ∀ r2 ∈ ms, r1.key = r2.key → r1 = r2) :
    ((ms.filter p).map refTracker).find? (fun t => t.key == l.key) =
      Option.none := by
  rw [List.find?_eq_none]
  intro t ht hk
  rw [List.mem_map] at ht
  obtain ⟨r, hr, rfl⟩ := ht
  rw [List.mem_filter] at hr
  have hkr : r.key = l.key := by simpa [refTracker] using hk
  have : r = l := hinj r hr.1 l hl hkr
  rw [this] at hr
  rw [hr.2] at hp
  cases hp

theorem partCreated_refTrackers (ms : List RRec) :
    partCreated (ms.map refTracker) = [] := by
  induction ms with
  | nil => rfl
  | cons a ms ih =>
    rw [List.map_cons, partCreated, List.filter_cons]
    rw [partCreated] at ih
    simpa [refTracker] using ih

theorem partDeleted_refTrackers (ms : List RRec) :
    partDeleted (ms.map refTracker) = [] := by
  induction ms with
  | nil => rfl
  | cons a ms ih =>
    rw [List.map_cons, partDeleted, List.filter_cons]
    rw [partDeleted] at ih
    simpa [refTracker] using ih

theorem partUpdated_refTrackers (ms : List RRec)
    (h : ∀ r ∈ ms, r.ref.isSome = true) :
    partUpdated (fun r => r) (ms.map refTracker) = ms.map refTracker := by
  induction ms with
  | nil => rfl
  | cons a ms ih =>
    have hmod : tModified (fun r => r) (refTracker a) = true := by
      rw [tModified]
      have hne : setRefNone a ≠ a := by
        intro he
        have h2 : a.ref = Option.none := (congrArg RRec.ref he).symm
        have h3 := h a (List.mem_cons_self a ms)
        rw [h2] at h3
        cases h3
      simp [refTracker, hne]
    simp only [List.map_cons, partUpdated, List.filter_cons]
    rw [partUpdated] at ih
    rw [ih (fun r hr => h r (List.mem_cons_of_mem a hr))]
    have hcond : ((refTracker a).mode == TrackingMode.update &&
        tModified (fun r => r) (refTracker a)) = true := by
      rw [hmod]
      rfl
    rw [hcond]
    simp

theorem map_congr_mem {α β : Type} (f g : α → β) (l : List α)
    (h : ∀ a ∈ l, f a = g a) : l.map f = l.map g := by
  induction l with
  | nil => rfl
  | cons a as ih =>
    rw [List.map_cons, List.map_cons, h a (List.mem_cons_self a as),
      ih (fun b hb => h b (List.mem_cons_of_mem a hb))]

theorem countP_congr_mem {α : Type} (f g : α → Bool) (l : List α)
    (h : ∀ a ∈ l, f a = g a) : l.countP f = l.countP g := by
  induction l with
  | nil => rfl
  | cons a as ih =>
    rw [List.countP_cons, List.countP_cons, h a (List.mem_cons_self a as),
      ih (fun b hb => h b (List.mem_cons_of_mem a hb))]

/-- C6: for a committed delete whose collection configures a
DeleteReference cascade, every related record whose reference field
equals the deleted parent's key remains present in the related
collection with its reference field nulled, all other records are
untouched, and the related collection's commit returns the matched
count.  Record keys identify records (UUID keys) and are non-empty. -/
theorem c6_deleteReference_cascade (pk : String) (file : List RRec)
    (hinj : ∀ r1 ∈ file, ∀ r2 ∈ file, r1.key = r2.key → r1 = r2)
    (hkeys : ∀ r ∈ file, r.key ≠ "") :
    (careDeleteReference pk file).file =
      some (file.map (fun r => if r.ref == some pk then setRefNone r else r)) ∧
    (careDeleteReference pk file).result =
      .ok ((file.filter (fun r => r.ref == some pk)).length) ∧
    ∀ r ∈ file, r.ref = some pk →
      setRefNone r ∈ ((careDeleteReference pk file).file.getD []) := by
  have hq : ∀ l ∈ file,
      ((((file.filter (fun r => r.ref == some pk)).map refTracker).find?
        (fun t => t.key == l.key)).isSome) = (l.ref == some pk) := by
    intro l hl
    by_cases hp : (l.ref == some pk) = true
    · rw [find?_refTracker_pos _ file l hl hp hinj, hp]
      rfl
    · rw [Bool.not_eq_true] at hp
      rw [find?_refTracker_neg _ file l hl hp hinj, hp]
      rfl
  have hfg : ∀ l ∈ file,
      (match ((file.filter (fun r => r.ref == some pk)).map refTracker).find?
          (fun t => t.key == l.key) with
        | some t => t.master
        | Option.none => l) =
      (if l.ref == some pk then setRefNone l else l) := by
    intro l hl
    by_cases hp : (l.ref == some pk) = true
    · rw [find?_refTracker_pos _ file l hl hp hinj, hp]
      simp [refTracker]
    · rw [Bool.not_eq_true] at hp
      rw [find?_refTracker_neg _ file l hl hp hinj, hp]
      simp
  have hmain : (careDeleteReference pk file).file =
      some (file.map (fun r => if r.ref == some pk then setRefNone r else r)) ∧
      (careDeleteReference pk file).result =
        .ok ((file.filter (fun r => r.ref == some pk)).length) := by
    have hc := partCreated_refTrackers (file.filter (fun r => r.ref == some pk))
    have hd := partDeleted_refTrackers (file.filter (fun r => r.ref == some pk))
    have hu := partUpdated_refTrackers (file.filter (fun r => r.ref == some pk))
      (by
        intro r hr
        have := (List.mem_filter.1 hr).2
        have h2 : r.ref = some pk := by simpa using this
        rw [h2]
        rfl)
    cases hfil : file.filter (fun r => r.ref == some pk) with
    | nil =>
      have hid : file.map (fun r => if r.ref == some pk then setRefNone r else r) =
          file := by
        have hnone := List.filter_eq_nil_iff.1 hfil
        have := map_congr_mem (fun r => if r.ref == some pk then setRefNone r else r)
          (fun r => r) file (by
            intro a ha
            have : ¬ (a.ref == some pk) = true := hnone a ha
            rw [Bool.not_eq_true] at this
            simp [this])
        rw [this, List.map_id']
      rw [hfil] at hc hd hu
      simp only [careDeleteReference, hfil]
      rw [saveChanges]
      dsimp only
      rw [List.map_nil] at hc hd hu ⊢
      rw [hc, hu, hd]
      simp only [List.nil_append, List.append_nil, List.any_nil, Bool.not_false,
        if_true]
      constructor
      · rw [hid]
      · rfl
    | cons m ms =>
      have hmem : m ∈ file := by
        have : m ∈ file.filter (fun r => r.ref == some pk) := by
          rw [hfil]
          exact List.mem_cons_self m ms
        exact List.mem_of_mem_filter this
      have hguard : (((file.filter (fun r => r.ref == some pk)).map refTracker).any
          (fun t => t.key != "")) = true := by
        refine List.any_eq_true.2 ⟨refTracker m, ?_, ?_⟩
        · refine List.mem_map_of_mem refTracker ?_
          rw [hfil]
          exact List.mem_cons_self m ms
        · have := hkeys m hmem
          simpa [refTracker] using this
      have hne : (((file.filter (fun r => r.ref == some pk)).map
          refTracker).isEmpty) = false := by
        rw [hfil, List.map_cons]
        rfl
      have hany : (file.any (fun l =>
          ((((file.filter (fun r => r.ref == some pk)).map refTracker).find?
            (fun t => t.key == l.key)).isSome))) = true := by
        refine List.any_eq_true.2 ⟨m, hmem, ?_⟩
        rw [hq m hmem]
        have hmf : m ∈ file.filter (fun r => r.ref == some pk) := by
          rw [hfil]
          exact List.mem_cons_self m ms
        exact (List.mem_filter.1 hmf).2
      simp only [careDeleteReference]
      rw [saveChanges]
      dsimp only
      rw [hc, hu, hd]
      simp only [List.nil_append, List.append_nil]
      rw [hguard]
      simp only [Bool.not_true, Bool.false_eq_true, if_false]
      rw [appendLoop]
      dsimp only
      simp only [Option.getD_some, List.append_nil, hne, List.isEmpty_nil,
        Bool.false_and, Bool.false_eq_true, if_false]
      rw [rewriteLoop_replaceAll]
      dsimp only
      rw [map_congr_mem _ _ file hfg, countP_congr_mem _ _ file hq]
      rw [List.countP_eq_length_filter]
      rw [hany]
      simp only [Bool.or_true, if_true]
      constructor
      · rfl
      · simp [hfil]
  refine ⟨hmain.1, hmain.2, ?_⟩
  intro r hr hrp
  rw [hmain.1]
  simp only [Option.getD_some]
  have hg : (if r.ref == some pk then setRefNone r else r) = setRefNone r := by
    rw [hrp]
    simp
  rw [← hg]
  exact List.mem_map_of_mem _ hr

/-- Related-collection file for the cascade witness: two records
referencing parent "p", one referencing a different parent. -/
def c6file : List RRec :=
  [⟨"a", some "p", 1⟩, ⟨"b", some "q", 2⟩, ⟨"c", some "p", 3⟩]

theorem c6_deleteReference_cascade_witness :
    (careDeleteReference "p" c6file).file =
      some [⟨"a", Option.none, 1⟩, ⟨"b", some "q", 2⟩, ⟨"c", Option.none, 3⟩] ∧
    (careDeleteReference "p" c6file).result = .ok 2 :=
  ⟨((c6_deleteReference_cascade "p" c6file (by decide) (by decide)).1).trans (by rfl),
   ((c6_deleteReference_cascade "p" c6file (by decide) (by decide)).2.1).trans (by rfl)⟩

/-! ### Master-line format (`json.dumps`, `Collection._get_line_id`)

`_save_changes` writes `json.dumps(serialize(entity)) + "\n"` for each
record.  `json.dumps` is modelled at the character level with its
default arguments: separators `", "` and `": "`, `ensure_ascii=True`
(everything outside 0x20-0x7e is `\uXXXX`-escaped, with surrogate
pairs beyond the BMP), and the standard two-character escapes. -/

def hexDigitChar (n : Nat) : Char :=
  if n < 10 then Char.ofNat (48 + n) else Char.ofNat (87 + n)

def uHex (n : Nat) : List Char :=
  [hexDigitChar (n / 4096 % 16), hexDigitChar (n / 256 % 16),
   hexDigitChar (n / 16 % 16), hexDigitChar (n % 16)]

/-- `json.encoder`'s per-character escaping (`ESCAPE_ASCII`): quote and
backslash, the short escapes, and `\uXXXX` for anything outside
0x20-0x7e. -/
def jsonEscChar (c : Char) : List Char :=
  if c = '"' then ['\\', '"']
  else if c = '\\' then ['\\', '\\']
  else if c.toNat == 8 then ['\\', 'b']
  else if c.toNat == 9 then ['\\', 't']
  else if c.toNat == 10 then ['\\', 'n']
  else if c.toNat == 12 then ['\\', 'f']
  else if c.toNat == 13 then ['\\', 'r']
  else if c.toNat < 32 then '\\' :: 'u' :: uHex c.toNat
  else if c.toNat ≤ 126 then [c]
  else if c.toNat < 65536 then '\\' :: 'u' :: uHex c.toNat
  else
    ('\\' :: 'u' :: uHex (55296 + (c.toNat - 65536) / 1024)) ++
      ('\\' :: 'u' :: uHex (56320 + (c.toNat - 65536) % 1024))

def escList : List Char → List Char
  | [] => []
  | c :: rest => jsonEscChar c ++ escList rest

/-- A JSON string literal: quote, escaped characters, quote. -/
def jsonEscStr (s : String) : List Char :=
  '"' :: (escList s.toList ++ ['"'])

mutual

/-- `json.dumps` with default arguments, as the character list of its
output.  Objects that are not JSON types raise `TypeError`. -/
def jsonDumps : Value → Except SerErr (List Char)
  | .none => .ok "null".toList
  | .bool true => .ok "true".toList
  | .bool false => .ok "false".toList
  | .int n => .ok (toString n).toList
  | .str s => .ok (jsonEscStr s)
  | .list xs =>
    match jsonDumpsItems xs with
    | .error e => .error e
    | .ok body => .ok ('[' :: (body ++ [']']))
  | .dict kvs =>
    match jsonDumpsEntries kvs with
    | .error e => .error e
    | .ok body => .ok ('\x7b' :: (body ++ ['\x7d']))
  | .obj _ _ => .error (.typeError "is not JSON serializable")

def jsonDumpsItems : List Value → Except SerErr (List Char)
  | [] => .ok []
  | x :: rest =>
    match jsonDumps x with
    | .error e => .error e
    | .ok sx =>
      match jsonDumpsItems rest with
      | .error e => .error e
      | .ok srest =>
        .ok (sx ++ (if rest.isEmpty then [] else ',' :: [' ']) ++ srest)

def jsonDumpsEntries : List (String × Value) → Except SerErr (List Char)
  | [] => .ok []
  | (k, v) :: rest =>
    match jsonDumps v with
    | .error e => .error e
    | .ok sv =>
      match jsonDumpsEntries rest with
      | .error e => .error e
      | .ok srest =>
        .ok (jsonEscStr k ++ (':' :: [' ']) ++ sv ++
          (if rest.isEmpty then [] else ',' :: [' ']) ++ srest)

end

/-- `Collection._get_line_id`: `line_of[10:46]` over the line's
characters. -/
def getLineId (line : List Char) : List Char := (line.drop 10).take 36

/-- The id property installed by `UuidMasterEntityFactory`
(`_master_entity.py` lines 96-103): mangled actual name, wire name
`__id`. -/
def idProp : TProp :=
  { actualName := "_MasterEntity__id", jsonPropertyName := some "__id",
    required := true, init := false, typeOfEntity := "str" }

/-- The slave property installed by `MasterEntityFactory.__init__`
(`_master_entity.py` lines 60-67). -/
def slaveProp (slaveCls : String) : TProp :=
  { actualName := "_MasterEntity_slave", jsonPropertyName := some "slave",
    required := true, init := true, isComplex := true,
    typeOfEntity := slaveCls }

/-- A one-field slave entity class: enough for the slave to serialize
to a JSON dict, as any real entity with fields does. -/
def childProp : TProp := { actualName := "name" }

theorem escList_id (cs : List Char) (h : ∀ c ∈ cs, jsonEscChar c = [c]) :
    escList cs = cs := by
  induction cs with
  | nil => rfl
  | cons c rest ih =>
    rw [escList, h c (List.mem_cons_self c rest),
      ih (fun d hd => h d (List.mem_cons_of_mem c hd))]
    rfl

theorem getLineId_at10 (key : String) (rest : List Char)
    (h : key.toList.length = 36) (a1 a2 a3 a4 a5 a6 a7 a8 a9 a10 : Char) :
    getLineId (a1 :: a2 :: a3 :: a4 :: a5 :: a6 :: a7 :: a8 :: a9 :: a10 ::
      (key.toList ++ rest)) = key.toList := by
  rw [getLineId]
  show (key.toList ++ rest).take 36 = key.toList
  exact List.take_left' h

/-- C7: a master record built by the default UUID key strategy (id
property first in `get_properties` order, since `getmembers` sorts
`_MasterEntity__id` before `slave`) serializes to a dict whose dumped
line starts with the ten characters `\x7b"__id": "` followed by the key;
when the key is 36 characters of escape-free ASCII (as UUIDs are), the
key occupies exactly characters 10-45 of the line, so
`_get_line_id`'s `line[10:46]` recovers it without JSON parsing. -/
theorem c7_keyExtraction (s : Schema) (f : Nat) (key : String) (sval : Value)
    (svs : List Char)
    (hs1 : s "UuidMasterEntity" = [idProp, slaveProp "Child"])
    (hs2 : s "Child" = [childProp])
    (hkey1 : key.toList.length = 36)
    (hkey2 : ∀ c ∈ key.toList, jsonEscChar c = [c])
    (hdv : jsonDumps sval = .ok svs) :
    serialize s (f + 1) (.obj "UuidMasterEntity"
        [("_MasterEntity__id", .str key),
         ("_MasterEntity_slave", .obj "Child" [("name", sval)])]) =
      .ok (.dict [("__id", .str key), ("slave", .dict [("name", sval)])]) ∧
    jsonDumps (.dict [("__id", .str key), ("slave", .dict [("name", sval)])]) =
      .ok ('\x7b' :: '"' :: '_' :: '_' :: 'i' :: 'd' :: '"' :: ':' :: ' ' :: '"' ::
        (key.toList ++ ('"' :: ',' :: ' ' :: '"' :: 's' :: 'l' :: 'a' :: 'v' :: 'e' ::
          '"' :: ':' :: ' ' :: '\x7b' :: '"' :: 'n' :: 'a' :: 'm' :: 'e' :: '"' ::
          ':' :: ' ' :: (svs ++ ['\x7d', '\x7d'])))) ∧
    getLineId (('\x7b' :: '"' :: '_' :: '_' :: 'i' :: 'd' :: '"' :: ':' :: ' ' :: '"' ::
        (key.toList ++ ('"' :: ',' :: ' ' :: '"' :: 's' :: 'l' :: 'a' :: 'v' :: 'e' ::
          '"' :: ':' :: ' ' :: '\x7b' :: '"' :: 'n' :: 'a' :: 'm' :: 'e' :: '"' ::
          ':' :: ' ' :: (svs ++ ['\x7d', '\x7d'])))) ++ ['\n']) = key.toList := by
  refine ⟨?_, ?_, ?_⟩
  · have hslave : serialize s f (.obj "Child" [("name", sval)]) =
        .ok (.dict [("name", sval)]) := by
      rw [serialize, hs2, serPropsGo,
        @serEntry_scalar_eval s f [("name", sval)] childProp rfl rfl rfl]
      dsimp only
      rw [serPropsGo]
      simp [wireName, childProp, dictInsert, getattrPy, alookup]
    rw [serialize, hs1, serPropsGo,
      @serEntry_scalar_eval s (f + 1)
        [("_MasterEntity__id", .str key),
         ("_MasterEntity_slave", .obj "Child" [("name", sval)])] idProp rfl rfl rfl]
    dsimp only
    rw [serPropsGo,
      @serEntry_complex_eval s f
        [("_MasterEntity__id", .str key),
         ("_MasterEntity_slave", .obj "Child" [("name", sval)])]
        (slaveProp "Child") rfl rfl rfl (.dict [("name", sval)]) hslave]
    dsimp only
    rw [serPropsGo]
    simp [wireName, idProp, slaveProp, dictInsert, getattrPy, alookup]
  · have hn : jsonEscStr "name" = ['"', 'n', 'a', 'm', 'e', '"'] := rfl
    have hid : jsonEscStr "__id" = ['"', '_', '_', 'i', 'd', '"'] := rfl
    have hsl : jsonEscStr "slave" = ['"', 's', 'l', 'a', 'v', 'e', '"'] := rfl
    have hkeyesc : jsonEscStr key = '"' :: (key.toList ++ ['"']) := by
      rw [jsonEscStr, escList_id key.toList hkey2]
    have hinner : jsonDumps (.dict [("name", sval)]) =
        .ok ('\x7b' :: '"' :: 'n' :: 'a' :: 'm' :: 'e' :: '"' :: ':' :: ' ' ::
          (svs ++ ['\x7d'])) := by
      rw [jsonDumps, jsonDumpsEntries, hdv, jsonDumpsEntries]
      dsimp only
      rw [hn]
      simp
    rw [jsonDumps, jsonDumpsEntries,
      show jsonDumps (.str key) = .ok (jsonEscStr key) from by rw [jsonDumps],
      jsonDumpsEntries, hinner, jsonDumpsEntries]
    dsimp only
    rw [hid, hsl, hkeyesc]
    simp
  · simp only [List.cons_append, List.append_assoc]
    exact getLineId_at10 key _ hkey1 _ _ _ _ _ _ _ _ _ _

def c7schemaW : Schema := fun cls =>
  if cls == "UuidMasterEntity" then [idProp, slaveProp "Child"]
  else if cls == "Child" then [childProp]
  else []

def c7key : String := "01234567-89ab-cdef-0123-456789abcdef"

theorem c7_keyExtraction_witness :
    serialize c7schemaW (0 + 1) (.obj "UuidMasterEntity"
        [("_MasterEntity__id", .str c7key),
         ("_MasterEntity_slave", .obj "Child" [("name", .int 7)])]) =
      .ok (.dict [("__id", .str c7key), ("slave", .dict [("name", .int 7)])]) ∧
    jsonDumps (.dict [("__id", .str c7key), ("slave", .dict [("name", .int 7)])]) =
      .ok ('\x7b' :: '"' :: '_' :: '_' :: 'i' :: 'd' :: '"' :: ':' :: ' ' :: '"' ::
        (c7key.toList ++ ('"' :: ',' :: ' ' :: '"' :: 's' :: 'l' :: 'a' :: 'v' :: 'e' ::
          '"' :: ':' :: ' ' :: '\x7b' :: '"' :: 'n' :: 'a' :: 'm' :: 'e' :: '"' ::
          ':' :: ' ' :: (['7'] ++ ['\x7d', '\x7d'])))) ∧
    getLineId (('\x7b' :: '"' :: '_' :: '_' :: 'i' :: 'd' :: '"' :: ':' :: ' ' :: '"' ::
        (c7key.toList ++ ('"' :: ',' :: ' ' :: '"' :: 's' :: 'l' :: 'a' :: 'v' :: 'e' ::
          '"' :: ':' :: ' ' :: '\x7b' :: '"' :: 'n' :: 'a' :: 'm' :: 'e' :: '"' ::
          ':' :: ' ' :: (['7'] ++ ['\x7d', '\x7d'])))) ++ ['\n']) = c7key.toList :=
  c7_keyExtraction c7schemaW 0 c7key (.int 7) ['7'] rfl rfl (by decide) (by decide)
    (by rw [jsonDumps]; rfl)
